import Mathlib

/-!
A verification development for the eckfp8 repository: a Schnorr signature
stack over an elliptic curve whose base field is the degree-8 binomial
extension of the 31-bit KoalaBear prime, together with the Schnorr AIR
(trace layout and polynomial constraints) that algebraizes signature
verification.  Definitions are shallow embeddings of the Rust sources;
theorems settle the frozen specification claims.
-/

set_option maxRecDepth 8000

set_option maxHeartbeats 1000000

set_option synthInstance.maxHeartbeats 400000

/-- The KoalaBear prime `p = 2^31 - 2^24 + 1`, the base prime of the curve
coordinates (`curve/src/basefield.rs`, `p3_koala_bear`). -/
abbrev kbP : Nat := 2130706433

/-- The KoalaBear prime field, canonical unsigned representation below `p`. -/
abbrev Kb : Type := ZMod kbP

/-- Step lemma for verifying powers by repeated squaring. -/
theorem kb_pow_doub (x a b : Kb) (n : Nat) (h : x ^ n = a) (h2 : a * a = b) :
    x ^ (2 * n) = b := by
  rw [two_mul, pow_add, h, h2]

/-- Step lemma for verifying powers by repeated squaring, odd case. -/
theorem kb_pow_doub1 (x a b c : Kb) (n : Nat) (h : x ^ n = a) (h2 : a * a = b)
    (h3 : b * x = c) : x ^ (2 * n + 1) = c := by
  rw [pow_succ, two_mul, pow_add, h, h2, h3]

theorem kb_three_pow_1 : (3 : Kb) ^ 1 = 3 := pow_one 3
theorem kb_three_pow_3 : (3 : Kb) ^ 3 = 27 :=
  kb_pow_doub1 3 3 9 27 1 kb_three_pow_1 (by decide) (by decide)
theorem kb_three_pow_7 : (3 : Kb) ^ 7 = 2187 :=
  kb_pow_doub1 3 27 729 2187 3 kb_three_pow_3 (by decide) (by decide)
theorem kb_three_pow_15 : (3 : Kb) ^ 15 = 14348907 :=
  kb_pow_doub1 3 2187 4782969 14348907 7 kb_three_pow_7 (by decide) (by decide)
theorem kb_three_pow_31 : (3 : Kb) ^ 31 = 777715144 :=
  kb_pow_doub1 3 14348907 969473859 777715144 15 kb_three_pow_15 (by decide) (by decide)
theorem kb_three_pow_63 : (3 : Kb) ^ 63 = 1759267465 :=
  kb_pow_doub1 3 777715144 1296657966 1759267465 31 kb_three_pow_31 (by decide) (by decide)
theorem kb_three_pow_127 : (3 : Kb) ^ 127 = 1791270792 :=
  kb_pow_doub1 3 1759267465 597090264 1791270792 63 kb_three_pow_63 (by decide) (by decide)
theorem kb_three_pow_254 : (3 : Kb) ^ 254 = 1760025929 :=
  kb_pow_doub 3 1791270792 1760025929 127 kb_three_pow_127 (by decide)
theorem kb_three_pow_508 : (3 : Kb) ^ 508 = 542991299 :=
  kb_pow_doub 3 1760025929 542991299 254 kb_three_pow_254 (by decide)
theorem kb_three_pow_1016 : (3 : Kb) ^ 1016 = 1213133211 :=
  kb_pow_doub 3 542991299 1213133211 508 kb_three_pow_508 (by decide)
theorem kb_three_pow_2032 : (3 : Kb) ^ 2032 = 1364057261 :=
  kb_pow_doub 3 1213133211 1364057261 1016 kb_three_pow_1016 (by decide)
theorem kb_three_pow_4064 : (3 : Kb) ^ 4064 = 339671193 :=
  kb_pow_doub 3 1364057261 339671193 2032 kb_three_pow_2032 (by decide)
theorem kb_three_pow_8128 : (3 : Kb) ^ 8128 = 1816824389 :=
  kb_pow_doub 3 339671193 1816824389 4064 kb_three_pow_4064 (by decide)
theorem kb_three_pow_16256 : (3 : Kb) ^ 16256 = 373019801 :=
  kb_pow_doub 3 1816824389 373019801 8128 kb_three_pow_8128 (by decide)
theorem kb_three_pow_32512 : (3 : Kb) ^ 32512 = 1848593786 :=
  kb_pow_doub 3 373019801 1848593786 16256 kb_three_pow_16256 (by decide)
theorem kb_three_pow_65024 : (3 : Kb) ^ 65024 = 1168510561 :=
  kb_pow_doub 3 1848593786 1168510561 32512 kb_three_pow_32512 (by decide)
theorem kb_three_pow_130048 : (3 : Kb) ^ 130048 = 1047035213 :=
  kb_pow_doub 3 1168510561 1047035213 65024 kb_three_pow_65024 (by decide)
theorem kb_three_pow_260096 : (3 : Kb) ^ 260096 = 809067698 :=
  kb_pow_doub 3 1047035213 809067698 130048 kb_three_pow_130048 (by decide)
theorem kb_three_pow_520192 : (3 : Kb) ^ 520192 = 1989134074 :=
  kb_pow_doub 3 809067698 1989134074 260096 kb_three_pow_260096 (by decide)
theorem kb_three_pow_1040384 : (3 : Kb) ^ 1040384 = 2000983452 :=
  kb_pow_doub 3 1989134074 2000983452 520192 kb_three_pow_520192 (by decide)
theorem kb_three_pow_2080768 : (3 : Kb) ^ 2080768 = 860702919 :=
  kb_pow_doub 3 2000983452 860702919 1040384 kb_three_pow_1040384 (by decide)
theorem kb_three_pow_4161536 : (3 : Kb) ^ 4161536 = 665670555 :=
  kb_pow_doub 3 860702919 665670555 2080768 kb_three_pow_2080768 (by decide)
theorem kb_three_pow_8323072 : (3 : Kb) ^ 8323072 = 392596362 :=
  kb_pow_doub 3 665670555 392596362 4161536 kb_three_pow_4161536 (by decide)
theorem kb_three_pow_16646144 : (3 : Kb) ^ 16646144 = 699882112 :=
  kb_pow_doub 3 392596362 699882112 8323072 kb_three_pow_8323072 (by decide)
theorem kb_three_pow_33292288 : (3 : Kb) ^ 33292288 = 1548376985 :=
  kb_pow_doub 3 699882112 1548376985 16646144 kb_three_pow_16646144 (by decide)
theorem kb_three_pow_66584576 : (3 : Kb) ^ 66584576 = 170455089 :=
  kb_pow_doub 3 1548376985 170455089 33292288 kb_three_pow_33292288 (by decide)
theorem kb_three_pow_133169152 : (3 : Kb) ^ 133169152 = 148625052 :=
  kb_pow_doub 3 170455089 148625052 66584576 kb_three_pow_66584576 (by decide)
theorem kb_three_pow_266338304 : (3 : Kb) ^ 266338304 = 1748172362 :=
  kb_pow_doub 3 148625052 1748172362 133169152 kb_three_pow_133169152 (by decide)
theorem kb_three_pow_532676608 : (3 : Kb) ^ 532676608 = 2113994754 :=
  kb_pow_doub 3 1748172362 2113994754 266338304 kb_three_pow_266338304 (by decide)
theorem kb_three_pow_1065353216 : (3 : Kb) ^ 1065353216 = 2130706432 :=
  kb_pow_doub 3 2113994754 2130706432 532676608 kb_three_pow_532676608 (by decide)
theorem kb_three_pow2_2 : (3 : Kb) ^ 2 = 9 :=
  kb_pow_doub 3 3 9 1 kb_three_pow_1 (by decide)
theorem kb_three_pow2_4 : (3 : Kb) ^ 4 = 81 :=
  kb_pow_doub 3 9 81 2 kb_three_pow2_2 (by decide)
theorem kb_three_pow2_8 : (3 : Kb) ^ 8 = 6561 :=
  kb_pow_doub 3 81 6561 4 kb_three_pow2_4 (by decide)
theorem kb_three_pow2_16 : (3 : Kb) ^ 16 = 43046721 :=
  kb_pow_doub 3 6561 43046721 8 kb_three_pow2_8 (by decide)
theorem kb_three_pow2_32 : (3 : Kb) ^ 32 = 202438999 :=
  kb_pow_doub 3 43046721 202438999 16 kb_three_pow2_16 (by decide)
theorem kb_three_pow2_64 : (3 : Kb) ^ 64 = 1016389529 :=
  kb_pow_doub 3 202438999 1016389529 32 kb_three_pow2_32 (by decide)
theorem kb_three_pow2_128 : (3 : Kb) ^ 128 = 1112399510 :=
  kb_pow_doub 3 1016389529 1112399510 64 kb_three_pow2_64 (by decide)
theorem kb_three_pow2_256 : (3 : Kb) ^ 256 = 925288330 :=
  kb_pow_doub 3 1112399510 925288330 128 kb_three_pow2_128 (by decide)
theorem kb_three_pow2_512 : (3 : Kb) ^ 512 = 1368166559 :=
  kb_pow_doub 3 925288330 1368166559 256 kb_three_pow2_256 (by decide)
theorem kb_three_pow2_1024 : (3 : Kb) ^ 1024 = 1178470116 :=
  kb_pow_doub 3 1368166559 1178470116 512 kb_three_pow2_512 (by decide)
theorem kb_three_pow2_2048 : (3 : Kb) ^ 2048 = 1220923943 :=
  kb_pow_doub 3 1178470116 1220923943 1024 kb_three_pow2_1024 (by decide)
theorem kb_three_pow2_4096 : (3 : Kb) ^ 4096 = 1356258691 :=
  kb_pow_doub 3 1220923943 1356258691 2048 kb_three_pow2_2048 (by decide)
theorem kb_three_pow2_8192 : (3 : Kb) ^ 8192 = 591038889 :=
  kb_pow_doub 3 1356258691 591038889 4096 kb_three_pow2_4096 (by decide)
theorem kb_three_pow2_16384 : (3 : Kb) ^ 16384 = 919906353 :=
  kb_pow_doub 3 591038889 919906353 8192 kb_three_pow2_8192 (by decide)
theorem kb_three_pow2_32768 : (3 : Kb) ^ 32768 = 435958235 :=
  kb_pow_doub 3 919906353 435958235 16384 kb_three_pow2_16384 (by decide)
theorem kb_three_pow2_65536 : (3 : Kb) ^ 65536 = 2072804047 :=
  kb_pow_doub 3 435958235 2072804047 32768 kb_three_pow2_32768 (by decide)
theorem kb_three_pow2_131072 : (3 : Kb) ^ 131072 = 555809599 :=
  kb_pow_doub 3 2072804047 555809599 65536 kb_three_pow2_65536 (by decide)
theorem kb_three_pow2_262144 : (3 : Kb) ^ 262144 = 749749968 :=
  kb_pow_doub 3 555809599 749749968 131072 kb_three_pow2_131072 (by decide)
theorem kb_three_pow2_524288 : (3 : Kb) ^ 524288 = 14471777 :=
  kb_pow_doub 3 749749968 14471777 262144 kb_three_pow2_262144 (by decide)
theorem kb_three_pow2_1048576 : (3 : Kb) ^ 1048576 = 932825293 :=
  kb_pow_doub 3 14471777 932825293 524288 kb_three_pow2_524288 (by decide)
theorem kb_three_pow2_2097152 : (3 : Kb) ^ 2097152 = 338912181 :=
  kb_pow_doub 3 932825293 338912181 1048576 kb_three_pow2_1048576 (by decide)
theorem kb_three_pow2_4194304 : (3 : Kb) ^ 4194304 = 297594125 :=
  kb_pow_doub 3 338912181 297594125 2097152 kb_three_pow2_2097152 (by decide)
theorem kb_three_pow2_8388608 : (3 : Kb) ^ 8388608 = 69130339 :=
  kb_pow_doub 3 297594125 69130339 4194304 kb_three_pow2_4194304 (by decide)
theorem kb_three_pow2_16777216 : (3 : Kb) ^ 16777216 = 1828256994 :=
  kb_pow_doub 3 69130339 1828256994 8388608 kb_three_pow2_8388608 (by decide)

/-- `3 ^ (p - 1) = 1` in the KoalaBear field. -/
theorem kb_three_pow_p_sub_one : (3 : Kb) ^ (kbP - 1) = 1 := by
  have h : kbP - 1 = 2 * 1065353216 := by decide
  rw [h]
  exact kb_pow_doub 3 2130706432 1 1065353216 kb_three_pow_1065353216 (by decide)

/-- Lucas primality certificate: the KoalaBear modulus is prime. -/
theorem kbP_prime : Nat.Prime kbP := by
  apply lucas_primality kbP 3 kb_three_pow_p_sub_one
  intro r hr hrdvd
  have hfac : kbP - 1 = 2 ^ 24 * 127 := by decide
  rw [hfac] at hrdvd
  rcases (Nat.Prime.dvd_mul hr).mp hrdvd with h2 | h127
  · have : r = 2 := (Nat.prime_dvd_prime_iff_eq hr Nat.prime_two).mp
      (hr.dvd_of_dvd_pow h2)
    subst this
    have he : (kbP - 1) / 2 = 1065353216 := by decide
    rw [he, kb_three_pow_1065353216]
    decide
  · have h127p : Nat.Prime 127 := by decide
    have : r = 127 := (Nat.prime_dvd_prime_iff_eq hr h127p).mp h127
    subst this
    have he : (kbP - 1) / 127 = 16777216 := by decide
    rw [he, kb_three_pow2_16777216]
    decide

instance : Fact (Nat.Prime kbP) := ⟨kbP_prime⟩

/-- `3` is not a square in the KoalaBear field (Euler criterion certificate). -/
theorem kb_three_not_square : ¬ IsSquare (3 : Kb) := by
  intro hsq
  have h := (ZMod.euler_criterion kbP (a := 3) (by decide)).mp hsq
  have he : kbP / 2 = 1065353216 := by decide
  rw [he, kb_three_pow_1065353216] at h
  exact absurd h (by decide)

/-- `-3` is not a square in the KoalaBear field. -/
theorem kb_neg_three_not_square : ¬ IsSquare (-3 : Kb) := by
  intro hsq
  have h := (ZMod.euler_criterion kbP (a := -3) (by decide)).mp hsq
  have he : kbP / 2 = 1065353216 := by decide
  rw [he] at h
  have hev : (-3 : Kb) ^ 1065353216 = 3 ^ 1065353216 := by
    have : (1065353216 : Nat) = 2 * 532676608 := by decide
    rw [this, pow_mul, pow_mul, neg_sq]
  rw [hev, kb_three_pow_1065353216] at h
  exact absurd h (by decide)

/-- A square root of `-1` in the KoalaBear field. -/
theorem kb_sqrt_neg_one : (2113994754 : Kb) * 2113994754 = -1 := by decide


/-! ### The degree-8 binomial extension field `F_{p^8}` (curve/src/basefield.rs)

An element is an ordered tuple of 8 KoalaBear coefficients `(c0, ..., c7)`
interpreted as `sum c_i * u^i` modulo `u^8 - 3`, with multiplication by
15-term schoolbook convolution followed by the fold `u^8 = 3`
(spec section 4.1; the external `BinomialExtensionField<KoalaBear, 8>`). -/

/-- An element of `F_{p^8}`: 8 KoalaBear coefficients, lowest power first. -/
@[ext]
structure BaseField where
  c0 : Kb
  c1 : Kb
  c2 : Kb
  c3 : Kb
  c4 : Kb
  c5 : Kb
  c6 : Kb
  c7 : Kb
deriving DecidableEq

namespace BaseField

/-- Coordinatewise addition. -/
def add (x y : BaseField) : BaseField :=
  ⟨x.c0 + y.c0, x.c1 + y.c1, x.c2 + y.c2, x.c3 + y.c3,
   x.c4 + y.c4, x.c5 + y.c5, x.c6 + y.c6, x.c7 + y.c7⟩

/-- Coordinatewise negation. -/
def neg (x : BaseField) : BaseField :=
  ⟨-x.c0, -x.c1, -x.c2, -x.c3, -x.c4, -x.c5, -x.c6, -x.c7⟩

/-- Coordinatewise subtraction. -/
def sub (x y : BaseField) : BaseField :=
  ⟨x.c0 - y.c0, x.c1 - y.c1, x.c2 - y.c2, x.c3 - y.c3,
   x.c4 - y.c4, x.c5 - y.c5, x.c6 - y.c6, x.c7 - y.c7⟩

/-- Schoolbook product with the `u^8 = 3` fold: `out_k = t_k + 3 * t_{k+8}`. -/
def mul (x y : BaseField) : BaseField where
  c0 := x.c0 * y.c0 + 3 * (x.c1 * y.c7 + x.c2 * y.c6 + x.c3 * y.c5 + x.c4 * y.c4 + x.c5 * y.c3 + x.c6 * y.c2 + x.c7 * y.c1)
  c1 := x.c0 * y.c1 + x.c1 * y.c0 + 3 * (x.c2 * y.c7 + x.c3 * y.c6 + x.c4 * y.c5 + x.c5 * y.c4 + x.c6 * y.c3 + x.c7 * y.c2)
  c2 := x.c0 * y.c2 + x.c1 * y.c1 + x.c2 * y.c0 + 3 * (x.c3 * y.c7 + x.c4 * y.c6 + x.c5 * y.c5 + x.c6 * y.c4 + x.c7 * y.c3)
  c3 := x.c0 * y.c3 + x.c1 * y.c2 + x.c2 * y.c1 + x.c3 * y.c0 + 3 * (x.c4 * y.c7 + x.c5 * y.c6 + x.c6 * y.c5 + x.c7 * y.c4)
  c4 := x.c0 * y.c4 + x.c1 * y.c3 + x.c2 * y.c2 + x.c3 * y.c1 + x.c4 * y.c0 + 3 * (x.c5 * y.c7 + x.c6 * y.c6 + x.c7 * y.c5)
  c5 := x.c0 * y.c5 + x.c1 * y.c4 + x.c2 * y.c3 + x.c3 * y.c2 + x.c4 * y.c1 + x.c5 * y.c0 + 3 * (x.c6 * y.c7 + x.c7 * y.c6)
  c6 := x.c0 * y.c6 + x.c1 * y.c5 + x.c2 * y.c4 + x.c3 * y.c3 + x.c4 * y.c2 + x.c5 * y.c1 + x.c6 * y.c0 + 3 * (x.c7 * y.c7)
  c7 := x.c0 * y.c7 + x.c1 * y.c6 + x.c2 * y.c5 + x.c3 * y.c4 + x.c4 * y.c3 + x.c5 * y.c2 + x.c6 * y.c1 + x.c7 * y.c0

/-- Embedding of the small field into `F_{p^8}` (constant polynomials). -/
def ofKb (a : Kb) : BaseField := ⟨a, 0, 0, 0, 0, 0, 0, 0⟩

instance : Zero BaseField := ⟨ofKb 0⟩

instance : One BaseField := ⟨ofKb 1⟩

instance : Add BaseField := ⟨add⟩

instance : Neg BaseField := ⟨neg⟩

instance : Sub BaseField := ⟨sub⟩

instance : Mul BaseField := ⟨mul⟩

/-- `is_zero` of the extension field (used by `Affine::double`). -/
def isZero (x : BaseField) : Bool := decide (x = 0)

end BaseField


/-! ### The quadratic tower `Kb ⊂ L1 ⊂ L2 ⊂ L3` used to prove that
`BaseField` is a field.  `u^8 - 3` is irreducible over `Kb` because `3` is
not a square mod `p`; we realize `F_{p^8}` as three nested quadratic
extensions by square roots `r1 = √3`, `r2 = √r1`, `r3 = √r2`, and transfer
the field structure along the ring embedding `u ↦ r3`. -/

open Polynomial in
/-- Generic representation of an element of a quadratic extension. -/
theorem adjoinQuadRepr {K : Type} [Field K] (d : K) (z : AdjoinRoot (X ^ 2 - C d)) :
    ∃ s t : K, z = algebraMap K _ s + algebraMap K _ t * AdjoinRoot.root _ := by
  obtain ⟨g, rfl⟩ := AdjoinRoot.mk_surjective z
  have hm : (X ^ 2 - C d).Monic := monic_X_pow_sub_C d (by norm_num)
  refine ⟨(g %ₘ (X ^ 2 - C d)).coeff 0, (g %ₘ (X ^ 2 - C d)).coeff 1, ?_⟩
  have hne1 : (X ^ 2 - C d) ≠ 1 := by
    intro h
    have h2 : (X ^ 2 - C d).natDegree = 2 := natDegree_X_pow_sub_C
    rw [h, natDegree_one] at h2
    exact absurd h2 (by norm_num)
  have hdeg : (g %ₘ (X ^ 2 - C d)).natDegree ≤ 1 := by
    have h2 : (X ^ 2 - C d).natDegree = 2 := natDegree_X_pow_sub_C
    have hlt := natDegree_modByMonic_lt g hm hne1
    rw [h2] at hlt
    exact Nat.lt_succ_iff.mp hlt
  have hrepr := eq_X_add_C_of_natDegree_le_one hdeg
  have hsplit : AdjoinRoot.mk (X ^ 2 - C d) g = AdjoinRoot.mk _ (g %ₘ (X ^ 2 - C d)) := by
    conv_lhs => rw [← modByMonic_add_div g hm]
    rw [map_add, map_mul, AdjoinRoot.mk_self, zero_mul, add_zero]
  rw [hsplit]
  conv_lhs => rw [hrepr]
  rw [map_add, map_mul, AdjoinRoot.mk_C, AdjoinRoot.mk_C, AdjoinRoot.mk_X, add_comm]
  rfl

open Polynomial in
/-- Generic linear independence of `{1, root}` in a quadratic extension. -/
theorem adjoinQuadIndep {K : Type} [Field K] (d : K) (s t : K)
    (h : algebraMap K (AdjoinRoot (X ^ 2 - C d)) s +
      algebraMap K _ t * AdjoinRoot.root _ = 0) : s = 0 ∧ t = 0 := by
  have hm : (X ^ 2 - C d).Monic := monic_X_pow_sub_C d (by norm_num)
  have hpoly : AdjoinRoot.mk (X ^ 2 - C d) (C s + C t * X) = 0 := by
    rw [map_add, map_mul, AdjoinRoot.mk_C, AdjoinRoot.mk_C, AdjoinRoot.mk_X]
    exact h
  have hdvd : (X ^ 2 - C d) ∣ (C s + C t * X) := AdjoinRoot.mk_eq_zero.mp hpoly
  have hz : (C s + C t * X : K[X]) = 0 := by
    by_contra hne
    have hle := degree_le_of_dvd hdvd hne
    have h2 : (X ^ 2 - C d).degree = 2 := degree_X_pow_sub_C (by norm_num) d
    have hsm : (C s + C t * X : K[X]).degree ≤ 1 := by
      calc (C s + C t * X : K[X]).degree ≤ max (C s).degree (C t * X).degree :=
            degree_add_le _ _
        _ ≤ 1 := by
            refine max_le (le_trans degree_C_le (by norm_num)) ?_
            calc (C t * X : K[X]).degree ≤ (C t).degree + (X : K[X]).degree :=
                  degree_mul_le _ _
              _ ≤ 0 + 1 := add_le_add degree_C_le degree_X_le
              _ = 1 := by norm_num
    rw [h2] at hle
    exact absurd (le_trans hle hsm) (by norm_num)
  constructor
  · have := congrArg (fun q => Polynomial.coeff q 0) hz
    simpa using this
  · have := congrArg (fun q => Polynomial.coeff q 1) hz
    simpa using this

open Polynomial in
/-- The square of the adjoined root. -/
theorem adjoinQuadRootSq {K : Type} [Field K] (d : K) :
    (AdjoinRoot.root (X ^ 2 - C d)) ^ 2 = algebraMap K _ d :=
  root_X_pow_sub_C_pow 2 d

open Polynomial in
theorem l1_poly_irreducible : Irreducible (X ^ 2 - C (3 : Kb)) := by
  refine X_pow_sub_C_irreducible_of_prime Nat.prime_two ?_
  intro b hb
  exact kb_three_not_square ⟨b, by rw [← hb]; ring⟩

instance : Fact (Irreducible (Polynomial.X ^ 2 - Polynomial.C (3 : Kb))) :=
  ⟨l1_poly_irreducible⟩

/-- First level of the tower: `Kb(√3)`. -/
@[reducible]
noncomputable def L1 : Type := AdjoinRoot (Polynomial.X ^ 2 - Polynomial.C (3 : Kb))

/-- `√3` in `L1`. -/
noncomputable def r1 : L1 := AdjoinRoot.root _

theorem r1_sq : r1 ^ 2 = algebraMap Kb L1 3 := adjoinQuadRootSq 3

/-- `√3` has no square root in `L1` (else `-3` would be a square mod `p`). -/
theorem l2_no_sqrt : ∀ z : L1, z ^ 2 ≠ r1 := by
  intro z hz
  obtain ⟨s, t, rfl⟩ := adjoinQuadRepr 3 z
  have h1 : (AdjoinRoot.root (Polynomial.X ^ 2 - Polynomial.C (3 : Kb))) ^ 2 =
      algebraMap Kb L1 3 := r1_sq
  have hexp : (algebraMap Kb L1 s + algebraMap Kb L1 t * AdjoinRoot.root _) ^ 2 =
      algebraMap Kb L1 (s ^ 2 + 3 * t ^ 2) +
        algebraMap Kb L1 (2 * s * t) * AdjoinRoot.root _ := by
    have hmap : algebraMap Kb L1 (s ^ 2 + 3 * t ^ 2) =
        (algebraMap Kb L1 s) ^ 2 + algebraMap Kb L1 3 * (algebraMap Kb L1 t) ^ 2 := by
      rw [map_add, map_mul, map_pow, map_pow]
    have hmap2 : algebraMap Kb L1 (2 * s * t) =
        algebraMap Kb L1 2 * algebraMap Kb L1 s * algebraMap Kb L1 t := by
      rw [map_mul, map_mul]
    have h2 := map_ofNat (algebraMap Kb L1) 2
    rw [hmap, hmap2, h2]
    linear_combination (algebraMap Kb L1 t) ^ 2 * h1
  rw [hexp] at hz
  have hz2 : algebraMap Kb L1 (s ^ 2 + 3 * t ^ 2) +
      algebraMap Kb L1 (2 * s * t) * AdjoinRoot.root (Polynomial.X ^ 2 - Polynomial.C (3 : Kb)) =
      AdjoinRoot.root (Polynomial.X ^ 2 - Polynomial.C (3 : Kb)) := hz
  have h0 : algebraMap Kb L1 (s ^ 2 + 3 * t ^ 2) +
      algebraMap Kb L1 (2 * s * t - 1) * AdjoinRoot.root _ = 0 := by
    rw [map_sub, map_one]
    linear_combination hz2
  obtain ⟨h1', h2⟩ := adjoinQuadIndep 3 _ _ h0
  have h2' : 2 * s * t = 1 := by linear_combination h2
  have ht : t ≠ 0 := by
    intro h; rw [h] at h2'; simp at h2'
  have h3 : s ^ 2 = -3 * t ^ 2 := by linear_combination h1'
  have hsq : (s * t⁻¹) ^ 2 = -3 := by
    field_simp
    linear_combination h3
  exact kb_neg_three_not_square ⟨s * t⁻¹, by rw [← hsq]; ring⟩

open Polynomial in
theorem l2_poly_irreducible : Irreducible (X ^ 2 - C r1) := by
  refine X_pow_sub_C_irreducible_of_prime Nat.prime_two ?_
  intro b hb
  exact l2_no_sqrt b hb

instance : Fact (Irreducible (Polynomial.X ^ 2 - Polynomial.C r1)) :=
  ⟨l2_poly_irreducible⟩

/-- Second level of the tower: `L1(√√3)`. -/
@[reducible]
noncomputable def L2 : Type := AdjoinRoot (Polynomial.X ^ 2 - Polynomial.C r1)

/-- The adjoined fourth root of 3 in `L2`. -/
noncomputable def r2 : L2 := AdjoinRoot.root _

theorem r2_sq : r2 ^ 2 = algebraMap L1 L2 r1 := adjoinQuadRootSq r1

/-- A fixed square root of `-1` in `Kb`. -/
def kbI : Kb := 2113994754

/-- `r2` has no square root in `L2` (else `r1` would be a square in `L1`,
since `-1` is a square already in `Kb`). -/
theorem l3_no_sqrt : ∀ z : L2, z ^ 2 ≠ r2 := by
  intro z hz
  obtain ⟨s, t, rfl⟩ := adjoinQuadRepr r1 z
  have h1 : (AdjoinRoot.root (Polynomial.X ^ 2 - Polynomial.C r1)) ^ 2 =
      algebraMap L1 L2 r1 := r2_sq
  have hexp : (algebraMap L1 L2 s + algebraMap L1 L2 t * AdjoinRoot.root _) ^ 2 =
      algebraMap L1 L2 (s ^ 2 + r1 * t ^ 2) +
        algebraMap L1 L2 (2 * s * t) * AdjoinRoot.root _ := by
    have hmap : algebraMap L1 L2 (s ^ 2 + r1 * t ^ 2) =
        (algebraMap L1 L2 s) ^ 2 + algebraMap L1 L2 r1 * (algebraMap L1 L2 t) ^ 2 := by
      rw [map_add, map_mul, map_pow, map_pow]
    have hmap2 : algebraMap L1 L2 (2 * s * t) =
        algebraMap L1 L2 2 * algebraMap L1 L2 s * algebraMap L1 L2 t := by
      rw [map_mul, map_mul]
    have h2 := map_ofNat (algebraMap L1 L2) 2
    rw [hmap, hmap2, h2]
    linear_combination (algebraMap L1 L2 t) ^ 2 * h1
  rw [hexp] at hz
  have hz2 : algebraMap L1 L2 (s ^ 2 + r1 * t ^ 2) +
      algebraMap L1 L2 (2 * s * t) * AdjoinRoot.root (Polynomial.X ^ 2 - Polynomial.C r1) =
      AdjoinRoot.root (Polynomial.X ^ 2 - Polynomial.C r1) := hz
  have h0 : algebraMap L1 L2 (s ^ 2 + r1 * t ^ 2) +
      algebraMap L1 L2 (2 * s * t - 1) * AdjoinRoot.root _ = 0 := by
    rw [map_sub, map_one]
    linear_combination hz2
  obtain ⟨h1', h2⟩ := adjoinQuadIndep r1 _ _ h0
  have h2' : 2 * s * t = 1 := by linear_combination h2
  have ht : t ≠ 0 := by
    intro h; rw [h] at h2'; simp at h2'
  have hi : (algebraMap Kb L1 kbI) ^ 2 = -1 := by
    rw [← map_pow]
    have hii : (kbI : Kb) ^ 2 = -1 := by rw [sq]; exact kb_sqrt_neg_one
    rw [hii, map_neg, map_one]
  have h3 : s ^ 2 = -r1 * t ^ 2 := by linear_combination h1'
  have hsq : (algebraMap Kb L1 kbI * (s * t⁻¹)) ^ 2 = r1 := by
    rw [mul_pow, hi]
    have htt : (t⁻¹) ^ 2 = (t ^ 2)⁻¹ := by rw [inv_pow]
    rw [mul_pow, htt, h3]
    field_simp
  exact l2_no_sqrt _ hsq

open Polynomial in
theorem l3_poly_irreducible : Irreducible (X ^ 2 - C r2) := by
  refine X_pow_sub_C_irreducible_of_prime Nat.prime_two ?_
  intro b hb
  exact l3_no_sqrt b hb

instance : Fact (Irreducible (Polynomial.X ^ 2 - Polynomial.C r2)) :=
  ⟨l3_poly_irreducible⟩

/-- Third level of the tower: an 8-dimensional field extension of `Kb`. -/
@[reducible]
noncomputable def L3 : Type := AdjoinRoot (Polynomial.X ^ 2 - Polynomial.C r2)

/-- The adjoined eighth root of 3 in `L3`. -/
noncomputable def r3 : L3 := AdjoinRoot.root _

theorem r3_sq : r3 ^ 2 = algebraMap L2 L3 r2 := adjoinQuadRootSq r2

/-- The composite embedding `Kb →+* L3`. -/
noncomputable def kbToL3 : Kb →+* L3 :=
  (algebraMap L2 L3).comp ((algebraMap L1 L2).comp (algebraMap Kb L1))

theorem r3_pow_eight : r3 ^ 8 = kbToL3 3 := by
  have h1 : r3 ^ 8 = (((r3 ^ 2) ^ 2) ^ 2) := by ring
  rw [h1, r3_sq, ← map_pow, r2_sq, ← map_pow, ← map_pow, r1_sq]
  rfl


/-! ### Ring and field structure on `BaseField`, via the embedding `u ↦ r3` -/

/-- The coefficient polynomial of a `BaseField` element. -/
noncomputable def tpoly (x : BaseField) : Polynomial Kb :=
  .C x.c0 + .C x.c1 * .X + .C x.c2 * .X ^ 2 + .C x.c3 * .X ^ 3 + .C x.c4 * .X ^ 4 +
    .C x.c5 * .X ^ 5 + .C x.c6 * .X ^ 6 + .C x.c7 * .X ^ 7

/-- The ring embedding of `BaseField` into the tower field `L3`, sending `u` to `r3`. -/
noncomputable def phi (x : BaseField) : L3 := Polynomial.aeval r3 (tpoly x)

/-- The upper half of the 15-term convolution of two coefficient tuples. -/
noncomputable def hipoly (x y : BaseField) : Polynomial Kb :=
  .C (x.c1 * y.c7 + x.c2 * y.c6 + x.c3 * y.c5 + x.c4 * y.c4 + x.c5 * y.c3 + x.c6 * y.c2 + x.c7 * y.c1) +
    .C (x.c2 * y.c7 + x.c3 * y.c6 + x.c4 * y.c5 + x.c5 * y.c4 + x.c6 * y.c3 + x.c7 * y.c2) * .X +
    .C (x.c3 * y.c7 + x.c4 * y.c6 + x.c5 * y.c5 + x.c6 * y.c4 + x.c7 * y.c3) * .X ^ 2 +
    .C (x.c4 * y.c7 + x.c5 * y.c6 + x.c6 * y.c5 + x.c7 * y.c4) * .X ^ 3 +
    .C (x.c5 * y.c7 + x.c6 * y.c6 + x.c7 * y.c5) * .X ^ 4 +
    .C (x.c6 * y.c7 + x.c7 * y.c6) * .X ^ 5 +
    .C (x.c7 * y.c7) * .X ^ 6

open Polynomial in
/-- Schoolbook-and-fold multiplication agrees with polynomial multiplication
modulo `X^8 - 3`. -/
theorem tpoly_mul (x y : BaseField) :
    tpoly x * tpoly y = tpoly (BaseField.mul x y) + (X ^ 8 - C 3) * hipoly x y := by
  simp only [tpoly, BaseField.mul, hipoly, map_add, map_mul, map_ofNat]
  ring

open Polynomial in
theorem tpoly_add (x y : BaseField) :
    tpoly (BaseField.add x y) = tpoly x + tpoly y := by
  simp only [tpoly, BaseField.add, map_add]
  ring

open Polynomial in
theorem tpoly_neg (x : BaseField) : tpoly (BaseField.neg x) = -tpoly x := by
  simp only [tpoly, BaseField.neg, map_neg]
  ring

open Polynomial in
theorem tpoly_sub (x y : BaseField) :
    tpoly (BaseField.sub x y) = tpoly x - tpoly y := by
  simp only [tpoly, BaseField.sub, map_sub]
  ring

theorem kbToL3_eq : kbToL3 = algebraMap Kb L3 := rfl

open Polynomial in
theorem aeval_x_pow_sub_three : Polynomial.aeval r3 ((X : Polynomial Kb) ^ 8 - C 3) = 0 := by
  rw [map_sub, map_pow, Polynomial.aeval_X, Polynomial.aeval_C, ← kbToL3_eq, r3_pow_eight]
  exact sub_self _

theorem phi_add (x y : BaseField) : phi (x + y) = phi x + phi y := by
  show phi (BaseField.add x y) = _
  unfold phi
  rw [tpoly_add, map_add]

theorem phi_mul (x y : BaseField) : phi (x * y) = phi x * phi y := by
  show phi (BaseField.mul x y) = _
  unfold phi
  rw [← map_mul, tpoly_mul, map_add, map_mul, aeval_x_pow_sub_three, zero_mul, add_zero]

theorem phi_neg (x : BaseField) : phi (-x) = -phi x := by
  show phi (BaseField.neg x) = _
  unfold phi
  rw [tpoly_neg, map_neg]

theorem phi_sub (x y : BaseField) : phi (x - y) = phi x - phi y := by
  show phi (BaseField.sub x y) = _
  unfold phi
  rw [tpoly_sub, map_sub]

theorem phi_zero : phi 0 = 0 := by
  show phi (BaseField.ofKb 0) = 0
  unfold phi tpoly
  simp [BaseField.ofKb]

theorem phi_one : phi 1 = 1 := by
  show phi (BaseField.ofKb 1) = 1
  unfold phi tpoly
  simp [BaseField.ofKb]

theorem r3_pow_two : r3 ^ 2 = algebraMap L2 L3 r2 := r3_sq

theorem r3_pow_four : r3 ^ 4 = algebraMap L2 L3 (algebraMap L1 L2 r1) := by
  have h : r3 ^ 4 = (r3 ^ 2) ^ 2 := by ring
  rw [h, r3_pow_two, ← map_pow, r2_sq]

theorem r3_pow_six :
    r3 ^ 6 = algebraMap L2 L3 (algebraMap L1 L2 r1) * algebraMap L2 L3 r2 := by
  have h : r3 ^ 6 = r3 ^ 4 * r3 ^ 2 := by ring
  rw [h, r3_pow_four, r3_pow_two]

theorem phi_flat (x : BaseField) : phi x =
    algebraMap Kb L3 x.c0 + algebraMap Kb L3 x.c1 * r3 + algebraMap Kb L3 x.c2 * r3 ^ 2 +
    algebraMap Kb L3 x.c3 * r3 ^ 3 + algebraMap Kb L3 x.c4 * r3 ^ 4 +
    algebraMap Kb L3 x.c5 * r3 ^ 5 + algebraMap Kb L3 x.c6 * r3 ^ 6 +
    algebraMap Kb L3 x.c7 * r3 ^ 7 := by
  unfold phi tpoly
  simp only [map_add, map_mul, Polynomial.aeval_C, Polynomial.aeval_X, map_pow]

theorem hcomp (a : Kb) : algebraMap Kb L3 a =
    algebraMap L2 L3 (algebraMap L1 L2 (algebraMap Kb L1 a)) := rfl

theorem mon2 (a : Kb) : algebraMap Kb L3 a * r3 ^ 2 =
    algebraMap L2 L3 (algebraMap L1 L2 (algebraMap Kb L1 a)) * algebraMap L2 L3 r2 := by
  rw [hcomp, r3_pow_two]

theorem r3_pow_three : r3 ^ 3 = algebraMap L2 L3 r2 * r3 := by
  rw [pow_succ, r3_pow_two]

theorem r3_pow_five : r3 ^ 5 = algebraMap L2 L3 (algebraMap L1 L2 r1) * r3 := by
  rw [pow_succ, r3_pow_four]

theorem r3_pow_seven :
    r3 ^ 7 = algebraMap L2 L3 (algebraMap L1 L2 r1) * algebraMap L2 L3 r2 * r3 := by
  rw [pow_succ, r3_pow_six]

theorem mon3 (a : Kb) : algebraMap Kb L3 a * r3 ^ 3 =
    algebraMap L2 L3 (algebraMap L1 L2 (algebraMap Kb L1 a)) *
      (algebraMap L2 L3 r2 * r3) := by
  rw [hcomp, r3_pow_three]

theorem mon4 (a : Kb) : algebraMap Kb L3 a * r3 ^ 4 =
    algebraMap L2 L3 (algebraMap L1 L2 (algebraMap Kb L1 a)) *
      algebraMap L2 L3 (algebraMap L1 L2 r1) := by
  rw [hcomp, r3_pow_four]

theorem mon5 (a : Kb) : algebraMap Kb L3 a * r3 ^ 5 =
    algebraMap L2 L3 (algebraMap L1 L2 (algebraMap Kb L1 a)) *
      (algebraMap L2 L3 (algebraMap L1 L2 r1) * r3) := by
  rw [hcomp, r3_pow_five]

theorem mon6 (a : Kb) : algebraMap Kb L3 a * r3 ^ 6 =
    algebraMap L2 L3 (algebraMap L1 L2 (algebraMap Kb L1 a)) *
      (algebraMap L2 L3 (algebraMap L1 L2 r1) * algebraMap L2 L3 r2) := by
  rw [hcomp, r3_pow_six]

theorem mon7 (a : Kb) : algebraMap Kb L3 a * r3 ^ 7 =
    algebraMap L2 L3 (algebraMap L1 L2 (algebraMap Kb L1 a)) *
      (algebraMap L2 L3 (algebraMap L1 L2 r1) * algebraMap L2 L3 r2 * r3) := by
  rw [hcomp, r3_pow_seven]

theorem phi_eq_zero_imp (x : BaseField) (h : phi x = 0) : x = 0 := by
  rw [phi_flat] at h
  rw [hcomp x.c0, hcomp x.c1, mon2, mon3, mon4, mon5, mon6, mon7] at h
  have key : algebraMap L2 L3
      (algebraMap L1 L2 (algebraMap Kb L1 x.c0 + algebraMap Kb L1 x.c4 * r1) +
        algebraMap L1 L2 (algebraMap Kb L1 x.c2 + algebraMap Kb L1 x.c6 * r1) * r2) +
      algebraMap L2 L3
        (algebraMap L1 L2 (algebraMap Kb L1 x.c1 + algebraMap Kb L1 x.c5 * r1) +
          algebraMap L1 L2 (algebraMap Kb L1 x.c3 + algebraMap Kb L1 x.c7 * r1) * r2) * r3
      = 0 := by
    simp only [map_add, map_mul]
    linear_combination h
  obtain ⟨hP, hQ⟩ := adjoinQuadIndep r2 _ _ key
  obtain ⟨h04, h26⟩ := adjoinQuadIndep r1 _ _ hP
  obtain ⟨h15, h37⟩ := adjoinQuadIndep r1 _ _ hQ
  obtain ⟨h0, h4⟩ := adjoinQuadIndep 3 _ _ h04
  obtain ⟨h2, h6⟩ := adjoinQuadIndep 3 _ _ h26
  obtain ⟨h1, h5⟩ := adjoinQuadIndep 3 _ _ h15
  obtain ⟨h3, h7⟩ := adjoinQuadIndep 3 _ _ h37
  show x = BaseField.ofKb 0
  cases x
  simp_all [BaseField.ofKb]


theorem phi_injective : Function.Injective phi := by
  intro x y hxy
  have h : phi (x - y) = 0 := by rw [phi_sub, hxy, sub_self]
  have := phi_eq_zero_imp _ h
  calc x = x - y + y := by
        show x = BaseField.add (BaseField.sub x y) y
        cases x; cases y
        simp [BaseField.add, BaseField.sub]
    _ = 0 + y := by rw [this]
    _ = y := by
        show BaseField.add (BaseField.ofKb 0) y = y
        cases y
        simp [BaseField.add, BaseField.ofKb]

theorem bf_add_assoc (x y z : BaseField) : x + y + z = x + (y + z) :=
  phi_injective (by rw [phi_add, phi_add, phi_add, phi_add, add_assoc])

theorem bf_zero_add (x : BaseField) : 0 + x = x :=
  phi_injective (by rw [phi_add, phi_zero, zero_add])

theorem bf_add_zero (x : BaseField) : x + 0 = x :=
  phi_injective (by rw [phi_add, phi_zero, add_zero])

theorem bf_add_comm (x y : BaseField) : x + y = y + x :=
  phi_injective (by rw [phi_add, phi_add, add_comm])

theorem bf_neg_add_cancel (x : BaseField) : -x + x = 0 :=
  phi_injective (by rw [phi_add, phi_neg, neg_add_cancel, phi_zero])

theorem bf_sub_eq_add_neg (x y : BaseField) : x - y = x + -y :=
  phi_injective (by rw [phi_sub, phi_add, phi_neg, sub_eq_add_neg])

theorem bf_mul_assoc (x y z : BaseField) : x * y * z = x * (y * z) :=
  phi_injective (by rw [phi_mul, phi_mul, phi_mul, phi_mul, mul_assoc])

theorem bf_one_mul (x : BaseField) : 1 * x = x :=
  phi_injective (by rw [phi_mul, phi_one, one_mul])

theorem bf_mul_one (x : BaseField) : x * 1 = x :=
  phi_injective (by rw [phi_mul, phi_one, mul_one])

theorem bf_mul_comm (x y : BaseField) : x * y = y * x :=
  phi_injective (by rw [phi_mul, phi_mul, mul_comm])

theorem bf_left_distrib (x y z : BaseField) : x * (y + z) = x * y + x * z :=
  phi_injective (by rw [phi_mul, phi_add, phi_add, phi_mul, phi_mul, mul_add])

theorem bf_right_distrib (x y z : BaseField) : (x + y) * z = x * z + y * z :=
  phi_injective (by rw [phi_mul, phi_add, phi_add, phi_mul, phi_mul, add_mul])

theorem bf_zero_mul (x : BaseField) : 0 * x = 0 :=
  phi_injective (by rw [phi_mul, phi_zero, zero_mul])

theorem bf_mul_zero (x : BaseField) : x * 0 = 0 :=
  phi_injective (by rw [phi_mul, phi_zero, mul_zero])

instance : CommRing BaseField where
  add := (· + ·)
  zero := 0
  neg := Neg.neg
  sub := Sub.sub
  one := 1
  mul := (· * ·)
  nsmul := nsmulRec
  zsmul := zsmulRec
  add_assoc := bf_add_assoc
  zero_add := bf_zero_add
  add_zero := bf_add_zero
  add_comm := bf_add_comm
  neg_add_cancel := bf_neg_add_cancel
  sub_eq_add_neg := bf_sub_eq_add_neg
  mul_assoc := bf_mul_assoc
  one_mul := bf_one_mul
  mul_one := bf_mul_one
  mul_comm := bf_mul_comm
  left_distrib := bf_left_distrib
  right_distrib := bf_right_distrib
  zero_mul := bf_zero_mul
  mul_zero := bf_mul_zero

/-- The embedding of `BaseField` into the tower field, as a ring homomorphism. -/
noncomputable def phiHom : BaseField →+* L3 where
  toFun := phi
  map_one' := phi_one
  map_mul' := phi_mul
  map_zero' := phi_zero
  map_add' := phi_add

noncomputable instance fieldL1 : Field L1 := AdjoinRoot.instField

noncomputable instance fieldL2 : Field L2 := AdjoinRoot.instField

noncomputable instance fieldL3 : Field L3 := AdjoinRoot.instField

instance : IsDomain BaseField := by
  haveI : IsDomain L3 := Field.isDomain
  exact Function.Injective.isDomain phiHom phi_injective

/-- Enumeration of `BaseField` by its 8 coefficients. -/
def baseFieldEquivTuple : BaseField ≃ (Kb × Kb × Kb × Kb × Kb × Kb × Kb × Kb) where
  toFun x := (x.c0, x.c1, x.c2, x.c3, x.c4, x.c5, x.c6, x.c7)
  invFun t := ⟨t.1, t.2.1, t.2.2.1, t.2.2.2.1, t.2.2.2.2.1, t.2.2.2.2.2.1,
    t.2.2.2.2.2.2.1, t.2.2.2.2.2.2.2⟩
  left_inv _ := rfl
  right_inv _ := rfl

instance : Fintype BaseField := Fintype.ofEquiv _ baseFieldEquivTuple.symm

theorem card_baseField : Fintype.card BaseField = kbP ^ 8 := by
  rw [Fintype.card_congr baseFieldEquivTuple]
  simp only [Fintype.card_prod, ZMod.card]
  ring

namespace BaseField

/-- Fuel-bounded square-and-multiply exponentiation (binary exponentiation,
as the external field implementation computes large powers). -/
def fpow (x : BaseField) : Nat → Nat → BaseField
  | _, 0 => 1
  | 0, _ + 1 => 1
  | fuel + 1, m + 1 =>
    let h := fpow x fuel ((m + 1) / 2)
    if (m + 1) % 2 = 1 then h * h * x else h * h

theorem fpow_eq (x : BaseField) : ∀ fuel n, n < 2 ^ fuel → fpow x fuel n = x ^ n := by
  intro fuel
  induction fuel with
  | zero =>
    intro n hn
    have h0 : n = 0 := by omega
    subst h0
    rfl
  | succ f ih =>
    intro n hn
    cases n with
    | zero => rfl
    | succ m =>
      have hlt : (m + 1) / 2 < 2 ^ f := by
        have := Nat.pow_succ 2 f
        omega
      simp only [fpow, ih ((m + 1) / 2) hlt]
      rcases Nat.even_or_odd (m + 1) with he | ho
      · have h2 : (m + 1) % 2 = 0 := Nat.even_iff.mp he
        rw [if_neg (by omega), ← pow_add]
        congr 1
        omega
      · have h2 : (m + 1) % 2 = 1 := Nat.odd_iff.mp ho
        rw [if_pos h2, ← pow_add, ← pow_succ]
        congr 1
        omega

/-- Multiplicative inverse via Fermat: raise to `p^8 - 2` (spec section 4.1,
modelling the external extension-field `inverse`; `inverse 0 = 0`). -/
def inverse (x : BaseField) : BaseField := fpow x 256 (kbP ^ 8 - 2)

theorem inverse_eq_pow (x : BaseField) : inverse x = x ^ (kbP ^ 8 - 2) :=
  fpow_eq x 256 _ (by decide)

/-- Field division, as used by the curve formulas (`a / b = a * b⁻¹`). -/
def fdiv (x y : BaseField) : BaseField := x * inverse y

end BaseField

noncomputable instance : Field BaseField := Fintype.fieldOfDomain BaseField

namespace BaseField

theorem inverse_eq_inv (x : BaseField) : inverse x = x⁻¹ := by
  rcases eq_or_ne x 0 with rfl | hx
  · rw [inv_zero, inverse_eq_pow]
    have h2 : 2 ^ 8 ≤ kbP ^ 8 := Nat.pow_le_pow_left (by norm_num) 8
    have hne : kbP ^ 8 - 2 ≠ 0 := by omega
    exact zero_pow hne
  · have hcard : x ^ (Fintype.card BaseField - 1) = 1 :=
      FiniteField.pow_card_sub_one_eq_one x hx
    rw [card_baseField] at hcard
    have h2 : 2 ^ 8 ≤ kbP ^ 8 := Nat.pow_le_pow_left (by norm_num) 8
    have hmul : x * inverse x = 1 := by
      rw [inverse_eq_pow, ← pow_succ']
      have : kbP ^ 8 - 2 + 1 = kbP ^ 8 - 1 := by omega
      rw [this, hcard]
    exact eq_inv_of_mul_eq_one_right hmul

theorem fdiv_eq (x y : BaseField) : fdiv x y = x / y := by
  rw [fdiv, inverse_eq_inv, div_eq_mul_inv]

end BaseField


/-! ### The elliptic curve `y^2 = x^3 + 3u*x + 42639` (curve/src/affine.rs) -/

/-- Affine point: coordinates in `F_{p^8}` plus an infinity flag
(`curve/src/affine.rs`, `struct Affine`). -/
@[ext]
structure Affine where
  x : BaseField
  y : BaseField
  is_infinity : Bool
deriving DecidableEq

namespace Affine

/-- The curve coefficient `a = 3*u` (`Affine::curve_a`). -/
def curve_a : BaseField := ⟨0, 3, 0, 0, 0, 0, 0, 0⟩

/-- The curve coefficient `b = 42639` (`Affine::curve_b`). -/
def curve_b : BaseField := ⟨42639, 0, 0, 0, 0, 0, 0, 0⟩

/-- The point at infinity (`Affine::INFINITY`). -/
def INFINITY : Affine := ⟨0, 0, true⟩

/-- `Affine::new`. -/
def new (x y : BaseField) : Affine := ⟨x, y, false⟩

/-- `Affine::is_on_curve`: checks `y^2 = x^3 + a*x + b` (true at infinity). -/
def is_on_curve (p : Affine) : Bool :=
  if p.is_infinity then true
  else decide (p.y * p.y = p.x * p.x * p.x + curve_a * p.x + curve_b)

/-- The fixed generator literal from SSWU on ZKM2 (`Affine::generator`). -/
def generator : Affine :=
  new
    ⟨1813646457, 1763905369, 2115217807, 1299273209, 1825476283, 438909494,
      1368232771, 1195559694⟩
    ⟨376996212, 840779000, 1365273355, 655051022, 1286889583, 125328769,
      434578416, 2077084094⟩

/-- `Affine::double`: tangent doubling with the `y = 0` and infinity guards. -/
def double (p : Affine) : Affine :=
  if p.is_infinity then p
  else if BaseField.isZero p.y then INFINITY
  else
    let x2 := p.x * p.x
    let three_x2 := x2 + x2 + x2
    let numerator := three_x2 + curve_a
    let denominator := p.y + p.y
    let lambda := BaseField.fdiv numerator denominator
    let lambda2 := lambda * lambda
    let x_r := lambda2 - p.x - p.x
    let y_r := lambda * (p.x - x_r) - p.y
    new x_r y_r

/-- `Affine::negate`. -/
def negate (p : Affine) : Affine :=
  if p.is_infinity then p else new p.x (-p.y)

/-- `impl Add for Affine`: chord addition with all special cases. -/
def add (p q : Affine) : Affine :=
  if p.is_infinity then q
  else if q.is_infinity then p
  else if p.x = q.x then
    if p.y = q.y then p.double else INFINITY
  else
    let numerator := q.y - p.y
    let denominator := q.x - p.x
    let lambda := BaseField.fdiv numerator denominator
    let lambda2 := lambda * lambda
    let x_r := lambda2 - p.x - q.x
    let y_r := lambda * (p.x - x_r) - p.y
    new x_r y_r

end Affine

/-! ### The Weierstrass-curve view and correspondence with Mathlib's group -/

/-- The same curve as a Mathlib Weierstrass curve. -/
def Wcurve : WeierstrassCurve.Affine BaseField :=
  { a₁ := 0, a₂ := 0, a₃ := 0, a₄ := Affine.curve_a, a₆ := Affine.curve_b }

theorem Wcurve_Δ_ne_zero : Wcurve.Δ ≠ 0 := by decide

/-- Structural well-formedness of a source point: infinity is stored with zero
coordinates, and finite points satisfy the curve equation. -/
def Affine.wf (p : Affine) : Prop :=
  (p.is_infinity = true → p.x = 0 ∧ p.y = 0) ∧
    (p.is_infinity = false → p.is_on_curve = true)

instance (p : Affine) : Decidable p.wf := by unfold Affine.wf; infer_instance

theorem Affine.equation_of_oncurve {p : Affine} (h : p.is_on_curve = true)
    (hinf : p.is_infinity = false) : Wcurve.Equation p.x p.y := by
  have h2 : p.y * p.y = p.x * p.x * p.x + Affine.curve_a * p.x + Affine.curve_b := by
    simpa [Affine.is_on_curve, hinf] using h
  rw [WeierstrassCurve.Affine.equation_iff]
  show p.y ^ 2 + 0 * p.x * p.y + 0 * p.y =
    p.x ^ 3 + 0 * p.x ^ 2 + Affine.curve_a * p.x + Affine.curve_b
  linear_combination h2

theorem Affine.oncurve_of_equation {p : Affine} (h : Wcurve.Equation p.x p.y) :
    p.is_on_curve = true := by
  rw [WeierstrassCurve.Affine.equation_iff] at h
  have h2 : p.y ^ 2 + 0 * p.x * p.y + 0 * p.y =
      p.x ^ 3 + 0 * p.x ^ 2 + Affine.curve_a * p.x + Affine.curve_b := h
  by_cases hb : p.is_infinity = true
  · simp [Affine.is_on_curve, hb]
  · simp only [Bool.not_eq_true] at hb
    simp [Affine.is_on_curve, hb]
    linear_combination h2

/-- The corresponding Mathlib point (infinity, or the nonsingular affine point). -/
def toPoint (p : Affine) : Wcurve.Point :=
  if h : p.is_infinity = false ∧ p.is_on_curve = true then
    WeierstrassCurve.Affine.Point.some
      (Wcurve.nonsingular_of_Δ_ne_zero (Affine.equation_of_oncurve h.2 h.1) Wcurve_Δ_ne_zero)
  else 0

theorem Point_some_ext {a b c d : BaseField} (hx : a = c) (hy : b = d)
    (h₁ : Wcurve.Nonsingular a b) (h₂ : Wcurve.Nonsingular c d) :
    WeierstrassCurve.Affine.Point.some h₁ = WeierstrassCurve.Affine.Point.some h₂ := by
  subst hx
  subst hy
  rfl

/-! ### Correspondence between the source curve operations and Mathlib's group law -/

theorem two_ne_zero_bf : (2 : BaseField) ≠ 0 := by decide

theorem bf_self_eq_neg {y : BaseField} (h : y = -y) : y = 0 := by
  have h2 : (2 : BaseField) * y = 0 := by linear_combination h
  rcases mul_eq_zero.mp h2 with h3 | h3
  · exact absurd h3 two_ne_zero_bf
  · exact h3

theorem toPoint_of_inf {p : Affine} (h : p.is_infinity = true) : toPoint p = 0 := by
  rw [toPoint, dif_neg]
  intro hc
  rw [h] at hc
  exact absurd hc.1 (by decide)

theorem toPoint_of_fin {p : Affine} (h1 : p.is_infinity = false) (h2 : p.is_on_curve = true) :
    toPoint p = WeierstrassCurve.Affine.Point.some
      (Wcurve.nonsingular_of_Δ_ne_zero (Affine.equation_of_oncurve h2 h1) Wcurve_Δ_ne_zero) := by
  rw [toPoint, dif_pos ⟨h1, h2⟩]

theorem wcurve_negY (x y : BaseField) : Wcurve.negY x y = -y := by
  show -y - 0 * x - 0 = -y
  ring

theorem inf_false_of_not_true {p : Affine} (h : ¬p.is_infinity = true) :
    p.is_infinity = false := by
  rcases hb : p.is_infinity with _ | _
  · rfl
  · exact absurd hb h

theorem not_inf_true_of_false {p : Affine} (h : p.is_infinity = false) :
    ¬p.is_infinity = true := by
  rw [h]
  exact Bool.false_ne_true

theorem isZero_false_of_ne {y : BaseField} (h : y ≠ 0) : BaseField.isZero y = false := by
  rw [BaseField.isZero]
  exact decide_eq_false h

theorem negate_fin {p : Affine} (h : p.is_infinity = false) :
    p.negate = Affine.new p.x (-p.y) := by
  rw [Affine.negate, if_neg (not_inf_true_of_false h)]

theorem double_inf {p : Affine} (h : p.is_infinity = true) : p.double = p := by
  rw [Affine.double, if_pos h]

theorem double_y_zero {p : Affine} (h : p.is_infinity = false) (hy : p.y = 0) :
    p.double = Affine.INFINITY := by
  rw [Affine.double, if_neg (not_inf_true_of_false h), if_pos]
  rw [BaseField.isZero, hy]
  exact decide_eq_true rfl

theorem double_fin {p : Affine} (h : p.is_infinity = false) (hy : p.y ≠ 0) :
    p.double =
      Affine.new
        (BaseField.fdiv (p.x * p.x + p.x * p.x + p.x * p.x + Affine.curve_a) (p.y + p.y) *
          BaseField.fdiv (p.x * p.x + p.x * p.x + p.x * p.x + Affine.curve_a) (p.y + p.y) -
            p.x - p.x)
        (BaseField.fdiv (p.x * p.x + p.x * p.x + p.x * p.x + Affine.curve_a) (p.y + p.y) *
          (p.x -
            (BaseField.fdiv (p.x * p.x + p.x * p.x + p.x * p.x + Affine.curve_a) (p.y + p.y) *
              BaseField.fdiv (p.x * p.x + p.x * p.x + p.x * p.x + Affine.curve_a) (p.y + p.y) -
                p.x - p.x)) - p.y) := by
  rw [Affine.double, if_neg (not_inf_true_of_false h), if_neg]
  rw [isZero_false_of_ne hy]
  exact Bool.false_ne_true

theorem add_inf_left {p q : Affine} (h : p.is_infinity = true) : p.add q = q := by
  rw [Affine.add, if_pos h]

theorem add_inf_right {p q : Affine} (h : p.is_infinity = false) (h2 : q.is_infinity = true) :
    p.add q = p := by
  rw [Affine.add, if_neg (not_inf_true_of_false h), if_pos h2]

theorem add_dbl {p q : Affine} (h : p.is_infinity = false) (h2 : q.is_infinity = false)
    (hx : p.x = q.x) (hy : p.y = q.y) : p.add q = p.double := by
  rw [Affine.add, if_neg (not_inf_true_of_false h), if_neg (not_inf_true_of_false h2),
    if_pos hx, if_pos hy]

theorem add_vert {p q : Affine} (h : p.is_infinity = false) (h2 : q.is_infinity = false)
    (hx : p.x = q.x) (hy : p.y ≠ q.y) : p.add q = Affine.INFINITY := by
  rw [Affine.add, if_neg (not_inf_true_of_false h), if_neg (not_inf_true_of_false h2),
    if_pos hx, if_neg hy]

theorem add_chord {p q : Affine} (h : p.is_infinity = false) (h2 : q.is_infinity = false)
    (hx : p.x ≠ q.x) :
    p.add q =
      Affine.new
        (BaseField.fdiv (q.y - p.y) (q.x - p.x) * BaseField.fdiv (q.y - p.y) (q.x - p.x) -
          p.x - q.x)
        (BaseField.fdiv (q.y - p.y) (q.x - p.x) *
          (p.x - (BaseField.fdiv (q.y - p.y) (q.x - p.x) *
            BaseField.fdiv (q.y - p.y) (q.x - p.x) - p.x - q.x)) - p.y) := by
  rw [Affine.add, if_neg (not_inf_true_of_false h), if_neg (not_inf_true_of_false h2),
    if_neg hx]

theorem dbl_slope_eq {p : Affine} (hy : p.y ≠ 0) :
    Wcurve.slope p.x p.x p.y p.y =
      BaseField.fdiv (p.x * p.x + p.x * p.x + p.x * p.x + Affine.curve_a) (p.y + p.y) := by
  have hyneg : p.y ≠ Wcurve.negY p.x p.y := by
    rw [wcurve_negY]
    intro hc
    exact hy (bf_self_eq_neg hc)
  rw [WeierstrassCurve.Affine.slope_of_Y_ne rfl hyneg, BaseField.fdiv_eq, wcurve_negY]
  have hnum : 3 * p.x ^ 2 + 2 * Wcurve.a₂ * p.x + Wcurve.a₄ - Wcurve.a₁ * p.y =
      p.x * p.x + p.x * p.x + p.x * p.x + Affine.curve_a := by
    show 3 * p.x ^ 2 + 2 * 0 * p.x + Affine.curve_a - 0 * p.y = _
    ring
  have hden : p.y - -p.y = p.y + p.y := by ring
  rw [hnum, hden]

theorem chord_slope_eq {p q : Affine} (hx : p.x ≠ q.x) :
    Wcurve.slope p.x q.x p.y q.y = BaseField.fdiv (q.y - p.y) (q.x - p.x) := by
  rw [WeierstrassCurve.Affine.slope_of_X_ne hx, BaseField.fdiv_eq]
  rw [div_eq_div_iff (sub_ne_zero.mpr hx) (sub_ne_zero.mpr (Ne.symm hx))]
  ring

theorem addX_eq (x₁ x₂ L : BaseField) : Wcurve.addX x₁ x₂ L = L * L - x₁ - x₂ := by
  show L ^ 2 + 0 * L - 0 - x₁ - x₂ = _
  ring

theorem addY_eq (x₁ x₂ y₁ L : BaseField) :
    Wcurve.addY x₁ x₂ y₁ L = L * (x₁ - (L * L - x₁ - x₂)) - y₁ := by
  rw [WeierstrassCurve.Affine.addY, wcurve_negY, WeierstrassCurve.Affine.negAddY, addX_eq]
  ring

theorem wf_INFINITY : Affine.INFINITY.wf := by decide

theorem double_correct (p : Affine) (hp : p.wf) :
    p.double.wf ∧ toPoint p.double = toPoint p + toPoint p := by
  by_cases hinf : p.is_infinity = true
  · rw [double_inf hinf, toPoint_of_inf hinf, zero_add]
    exact ⟨hp, rfl⟩
  · have hinf' : p.is_infinity = false := inf_false_of_not_true hinf
    have hoc : p.is_on_curve = true := hp.2 hinf'
    have hn := Wcurve.nonsingular_of_Δ_ne_zero (Affine.equation_of_oncurve hoc hinf')
      Wcurve_Δ_ne_zero
    by_cases hy0 : p.y = 0
    · have hyneg : p.y = Wcurve.negY p.x p.y := by
        rw [wcurve_negY, hy0, neg_zero]
      rw [double_y_zero hinf' hy0, toPoint_of_inf rfl, toPoint_of_fin hinf' hoc,
        WeierstrassCurve.Affine.Point.add_self_of_Y_eq hyneg]
      exact ⟨wf_INFINITY, rfl⟩
    · have hyneg : p.y ≠ Wcurve.negY p.x p.y := by
        rw [wcurve_negY]
        intro hc
        exact hy0 (bf_self_eq_neg hc)
      have hd := double_fin hinf' hy0
      set lam : BaseField :=
        BaseField.fdiv (p.x * p.x + p.x * p.x + p.x * p.x + Affine.curve_a) (p.y + p.y)
        with hlam
      have hslope : Wcurve.slope p.x p.x p.y p.y = lam := dbl_slope_eq hy0
      have hxco : Wcurve.addX p.x p.x (Wcurve.slope p.x p.x p.y p.y) =
          lam * lam - p.x - p.x := by
        rw [hslope, addX_eq]
      have hyco : Wcurve.addY p.x p.x p.y (Wcurve.slope p.x p.x p.y p.y) =
          lam * (p.x - (lam * lam - p.x - p.x)) - p.y := by
        rw [hslope, addY_eq]
      have hn2 := WeierstrassCurve.Affine.nonsingular_add hn hn fun _ => hyneg
      have hn3 : Wcurve.Nonsingular (lam * lam - p.x - p.x)
          (lam * (p.x - (lam * lam - p.x - p.x)) - p.y) := by
        rw [← hyco, ← hxco]
        exact hn2
      have hocd : p.double.is_on_curve = true := by
        rw [hd]
        exact Affine.oncurve_of_equation hn3.1
      have hinfd : p.double.is_infinity = false := by rw [hd]; rfl
      refine ⟨⟨fun hc => absurd hc (not_inf_true_of_false hinfd), fun _ => hocd⟩, ?_⟩
      rw [toPoint_of_fin hinfd hocd, toPoint_of_fin hinf' hoc,
        WeierstrassCurve.Affine.Point.add_self_of_Y_ne hyneg]
      refine Point_some_ext ?_ ?_ _ _
      · rw [hd]
        exact hxco.symm
      · rw [hd]
        exact hyco.symm

theorem add_correct (p q : Affine) (hp : p.wf) (hq : q.wf) :
    (p.add q).wf ∧ toPoint (p.add q) = toPoint p + toPoint q := by
  by_cases hinfp : p.is_infinity = true
  · rw [add_inf_left hinfp, toPoint_of_inf hinfp, zero_add]
    exact ⟨hq, rfl⟩
  · have hinfp' : p.is_infinity = false := inf_false_of_not_true hinfp
    by_cases hinfq : q.is_infinity = true
    · rw [add_inf_right hinfp' hinfq, toPoint_of_inf hinfq, add_zero]
      exact ⟨hp, rfl⟩
    · have hinfq' : q.is_infinity = false := inf_false_of_not_true hinfq
      have hocp : p.is_on_curve = true := hp.2 hinfp'
      have hocq : q.is_on_curve = true := hq.2 hinfq'
      have hnp := Wcurve.nonsingular_of_Δ_ne_zero (Affine.equation_of_oncurve hocp hinfp')
        Wcurve_Δ_ne_zero
      have hnq := Wcurve.nonsingular_of_Δ_ne_zero (Affine.equation_of_oncurve hocq hinfq')
        Wcurve_Δ_ne_zero
      by_cases hxx : p.x = q.x
      · by_cases hyy : p.y = q.y
        · have h1 : p.add q = p.double := add_dbl hinfp' hinfq' hxx hyy
          have h2 := double_correct p hp
          rw [h1, h2.2, toPoint_of_fin hinfp' hocp, toPoint_of_fin hinfq' hocq]
          refine ⟨h2.1, ?_⟩
          have hpq : WeierstrassCurve.Affine.Point.some hnq =
              WeierstrassCurve.Affine.Point.some hnp :=
            Point_some_ext hxx.symm hyy.symm _ _
          rw [hpq]
        · have h1 : p.add q = Affine.INFINITY := add_vert hinfp' hinfq' hxx hyy
          have hyneg : p.y = Wcurve.negY q.x q.y := by
            rcases WeierstrassCurve.Affine.Y_eq_of_X_eq hnp.1 hnq.1 hxx with h | h
            · exact absurd h hyy
            · exact h
          rw [h1, toPoint_of_inf rfl, toPoint_of_fin hinfp' hocp, toPoint_of_fin hinfq' hocq,
            WeierstrassCurve.Affine.Point.add_of_Y_eq hxx hyneg]
          exact ⟨wf_INFINITY, rfl⟩
      · have hd := add_chord hinfp' hinfq' hxx
        set lam : BaseField := BaseField.fdiv (q.y - p.y) (q.x - p.x) with hlam
        have hslope : Wcurve.slope p.x q.x p.y q.y = lam := chord_slope_eq hxx
        have hxco : Wcurve.addX p.x q.x (Wcurve.slope p.x q.x p.y q.y) =
            lam * lam - p.x - q.x := by
          rw [hslope, addX_eq]
        have hyco : Wcurve.addY p.x q.x p.y (Wcurve.slope p.x q.x p.y q.y) =
            lam * (p.x - (lam * lam - p.x - q.x)) - p.y := by
          rw [hslope, addY_eq]
        have hn2 := WeierstrassCurve.Affine.nonsingular_add hnp hnq fun h => absurd h hxx
        have hn3 : Wcurve.Nonsingular (lam * lam - p.x - q.x)
            (lam * (p.x - (lam * lam - p.x - q.x)) - p.y) := by
          rw [← hyco, ← hxco]
          exact hn2
        have hocd : (p.add q).is_on_curve = true := by
          rw [hd]
          exact Affine.oncurve_of_equation hn3.1
        have hinfd : (p.add q).is_infinity = false := by rw [hd]; rfl
        refine ⟨⟨fun hc => absurd hc (not_inf_true_of_false hinfd), fun _ => hocd⟩, ?_⟩
        rw [toPoint_of_fin hinfd hocd, toPoint_of_fin hinfp' hocp, toPoint_of_fin hinfq' hocq,
          WeierstrassCurve.Affine.Point.add_of_X_ne hxx]
        refine Point_some_ext ?_ ?_ _ _
        · rw [hd]
          exact hxco.symm
        · rw [hd]
          exact hyco.symm

theorem toPoint_negate (p : Affine) (hp : p.wf) : toPoint p.negate = -(toPoint p) := by
  by_cases hinf : p.is_infinity = true
  · have h1 : p.negate = p := by rw [Affine.negate, if_pos hinf]
    rw [h1, toPoint_of_inf hinf, neg_zero]
  · have hinf' : p.is_infinity = false := inf_false_of_not_true hinf
    have hoc : p.is_on_curve = true := hp.2 hinf'
    have hn := Wcurve.nonsingular_of_Δ_ne_zero (Affine.equation_of_oncurve hoc hinf')
      Wcurve_Δ_ne_zero
    have hng := negate_fin hinf'
    have hocn : (Affine.new p.x (-p.y)).is_on_curve = true := by
      refine Affine.oncurve_of_equation ?_
      show Wcurve.Equation p.x (-p.y)
      rw [← wcurve_negY p.x p.y]
      exact WeierstrassCurve.Affine.equation_neg hn.1
    rw [hng, toPoint_of_fin rfl hocn, toPoint_of_fin hinf' hoc,
      WeierstrassCurve.Affine.Point.neg_some]
    exact Point_some_ext rfl (wcurve_negY p.x p.y).symm _ _

/-! ### The scalar field (curve/src/scalarfield.rs)

The scalar field of the curve, `q = 0xf06e44682c2aa440f5f26a5ae1748ff85ccc2efc3068faf2154ff8a2e94d81`,
is implemented in Montgomery form on four little-endian `u64` limbs. Machine
integers are modelled as `Nat` with explicit reduction `% 2^64` (or `% 2^128`
for the double-width intermediates). -/

/-- The `u64` wraparound modulus `2^64`. -/
def two64 : Nat := 18446744073709551616

/-- A `[u64; 4]` little-endian limb vector. -/
@[ext]
structure Limbs4 where
  l0 : Nat
  l1 : Nat
  l2 : Nat
  l3 : Nat
deriving DecidableEq

/-- The eight-limb intermediate `t` buffer of `montgomery_mul`. -/
@[ext]
structure Limbs8 where
  t0 : Nat
  t1 : Nat
  t2 : Nat
  t3 : Nat
  t4 : Nat
  t5 : Nat
  t6 : Nat
  t7 : Nat
deriving DecidableEq

/-- Scalar field element in Montgomery form (`struct ScalarField`). -/
@[ext]
structure ScalarField where
  limbs : Limbs4
deriving DecidableEq

/-- The field modulus `q` (`const MODULUS`), little-endian limbs. -/
def MODULUS : Limbs4 := ⟨0xf2154ff8a2e94d81, 0xf85ccc2efc3068fa, 0x40f5f26a5ae1748f,
  0x00f06e44682c2aa4⟩

/-- Montgomery parameter `R = 2^256 mod q` (`const R`). -/
def Rconst : Limbs4 := ⟨0xc95b07d2e81da6f0, 0x1d670e140c90755e, 0xfaae6eff70742708,
  0x008ad7515112b17a⟩

/-- Montgomery parameter `R^2 = 2^512 mod q` (`const R2`). -/
def R2 : Limbs4 := ⟨0x23eabb3eaf3c12e3, 0xefbc3b2088f7b0f7, 0x0943bc9a31f37148,
  0x004497b874228e49⟩

/-- Montgomery parameter `mu = -q^{-1} mod 2^64` (`const MU`). -/
def MU : Nat := 0x921d21f874d30d7f

/-- Helper `carrying_add`: `a + b + carry` on `u64` with carry-out, built from two
overflowing additions exactly as in the source. -/
def carrying_add (a b : Nat) (carry : Bool) : Nat × Bool :=
  let sum1 := (a + b) % two64
  let overflow1 := decide (a + b ≥ two64)
  let c := if carry then 1 else 0
  let sum2 := (sum1 + c) % two64
  let overflow2 := decide (sum1 + c ≥ two64)
  (sum2, overflow1 || overflow2)

/-- Helper `borrowing_sub`: `a - b - borrow` on `u64` with borrow-out, built from
two overflowing subtractions exactly as in the source. -/
def borrowing_sub (a b : Nat) (borrow : Bool) : Nat × Bool :=
  let diff1 := (a + two64 - b) % two64
  let overflow1 := decide (a < b)
  let c := if borrow then 1 else 0
  let diff2 := (diff1 + two64 - c) % two64
  let overflow2 := decide (diff1 < c)
  (diff2, overflow1 || overflow2)

/-- Helper `add_mod`: add two 256-bit numbers mod `q` with a conditional final
subtraction of the modulus. -/
def add_mod (a b : Limbs4) : Limbs4 :=
  let r0 := (a.l0 + b.l0) % two64
  let carry0 := decide (a.l0 + b.l0 ≥ two64)
  let rc1 := carrying_add a.l1 b.l1 carry0
  let rc2 := carrying_add a.l2 b.l2 rc1.2
  let rc3 := carrying_add a.l3 b.l3 rc2.2
  let s0 := (r0 + two64 - MODULUS.l0) % two64
  let borrow0 := decide (r0 < MODULUS.l0)
  let sb1 := borrowing_sub rc1.1 MODULUS.l1 borrow0
  let sb2 := borrowing_sub rc2.1 MODULUS.l2 sb1.2
  let sb3 := borrowing_sub rc3.1 MODULUS.l3 sb2.2
  if rc3.2 || !sb3.2 then ⟨s0, sb1.1, sb2.1, sb3.1⟩ else ⟨r0, rc1.1, rc2.1, rc3.1⟩

/-- Helper `sub_mod`: subtract two 256-bit numbers mod `q`, adding back the
modulus on underflow. -/
def sub_mod (a b : Limbs4) : Limbs4 :=
  let r0 := (a.l0 + two64 - b.l0) % two64
  let borrow0 := decide (a.l0 < b.l0)
  let rb1 := borrowing_sub a.l1 b.l1 borrow0
  let rb2 := borrowing_sub a.l2 b.l2 rb1.2
  let rb3 := borrowing_sub a.l3 b.l3 rb2.2
  if rb3.2 then
    let u0 := (r0 + MODULUS.l0) % two64
    let carry0 := decide (r0 + MODULUS.l0 ≥ two64)
    let uc1 := carrying_add rb1.1 MODULUS.l1 carry0
    let uc2 := carrying_add rb2.1 MODULUS.l2 uc1.2
    let uc3 := carrying_add rb3.1 MODULUS.l3 uc2.2
    ⟨u0, uc1.1, uc2.1, uc3.1⟩
  else ⟨r0, rb1.1, rb2.1, rb3.1⟩

/-- Helper `neg_mod`: negate a 256-bit number mod `q`. -/
def neg_mod (a : Limbs4) : Limbs4 :=
  if a.l0 = 0 ∧ a.l1 = 0 ∧ a.l2 = 0 ∧ a.l3 = 0 then ⟨0, 0, 0, 0⟩
  else sub_mod MODULUS a

/-- Helper `is_canonical`: the borrow of `limbs - MODULUS`, i.e. whether
`limbs < q`. -/
def is_canonical (limbs : Limbs4) : Bool :=
  let borrow0 := decide (limbs.l0 < MODULUS.l0)
  let b1 := borrowing_sub limbs.l1 MODULUS.l1 borrow0
  let b2 := borrowing_sub limbs.l2 MODULUS.l2 b1.2
  let b3 := borrowing_sub limbs.l3 MODULUS.l3 b2.2
  b3.2

/-- One multiply-accumulate step of the `montgomery_mul` inner loops:
`product = a*b + t + carry` on `u128`, returning `(product as u64, product >> 64)`. -/
def macc (a b t carry : Nat) : Nat × Nat :=
  let product := a * b + t + carry
  (product % two64, product / two64)

/-- One row `i` of the schoolbook product loop in `montgomery_mul`: multiplies the
limb `ai` into `b`, accumulating into `t[i..i+3]`, and returns the final carry
truncated to `u64` (the store `t[i+4] = carry as u64`). -/
def mul_row (ai : Nat) (b t : Limbs4) : Limbs4 × Nat :=
  let m0 := macc ai b.l0 t.l0 0
  let m1 := macc ai b.l1 t.l1 m0.2
  let m2 := macc ai b.l2 t.l2 m1.2
  let m3 := macc ai b.l3 t.l3 m2.2
  (⟨m0.1, m1.1, m2.1, m3.1⟩, m3.2 % two64)

/-- The full 4x4 schoolbook product phase of `montgomery_mul`: `t = a * b` over
eight limbs. -/
def mul_256 (a b : Limbs4) : Limbs8 :=
  let p0 := mul_row a.l0 b ⟨0, 0, 0, 0⟩
  let p1 := mul_row a.l1 b ⟨p0.1.l1, p0.1.l2, p0.1.l3, p0.2⟩
  let p2 := mul_row a.l2 b ⟨p1.1.l1, p1.1.l2, p1.1.l3, p1.2⟩
  let p3 := mul_row a.l3 b ⟨p2.1.l1, p2.1.l2, p2.1.l3, p2.2⟩
  ⟨p0.1.l0, p1.1.l0, p2.1.l0, p3.1.l0, p3.1.l1, p3.1.l2, p3.1.l3, p3.2⟩

/-- Montgomery reduction round `i = 0`: `k = t[0] * MU mod 2^64`, accumulate
`k * MODULUS` into `t[0..3]`, propagate the carry through `t[4..7]` (the final
carry out of `t[7]` is dropped). -/
def red_row0 (t : Limbs8) : Limbs8 :=
  let k := t.t0 * MU % two64
  let m0 := macc k MODULUS.l0 t.t0 0
  let m1 := macc k MODULUS.l1 t.t1 m0.2
  let m2 := macc k MODULUS.l2 t.t2 m1.2
  let m3 := macc k MODULUS.l3 t.t3 m2.2
  let s4 := (t.t4 + m3.2) % two64
  let c4 := (t.t4 + m3.2) / two64
  let s5 := (t.t5 + c4) % two64
  let c5 := (t.t5 + c4) / two64
  let s6 := (t.t6 + c5) % two64
  let c6 := (t.t6 + c5) / two64
  let s7 := (t.t7 + c6) % two64
  ⟨m0.1, m1.1, m2.1, m3.1, s4, s5, s6, s7⟩

/-- Montgomery reduction round `i = 1`. -/
def red_row1 (t : Limbs8) : Limbs8 :=
  let k := t.t1 * MU % two64
  let m0 := macc k MODULUS.l0 t.t1 0
  let m1 := macc k MODULUS.l1 t.t2 m0.2
  let m2 := macc k MODULUS.l2 t.t3 m1.2
  let m3 := macc k MODULUS.l3 t.t4 m2.2
  let s5 := (t.t5 + m3.2) % two64
  let c4 := (t.t5 + m3.2) / two64
  let s6 := (t.t6 + c4) % two64
  let c5 := (t.t6 + c4) / two64
  let s7 := (t.t7 + c5) % two64
  ⟨t.t0, m0.1, m1.1, m2.1, m3.1, s5, s6, s7⟩

/-- Montgomery reduction round `i = 2`. -/
def red_row2 (t : Limbs8) : Limbs8 :=
  let k := t.t2 * MU % two64
  let m0 := macc k MODULUS.l0 t.t2 0
  let m1 := macc k MODULUS.l1 t.t3 m0.2
  let m2 := macc k MODULUS.l2 t.t4 m1.2
  let m3 := macc k MODULUS.l3 t.t5 m2.2
  let s6 := (t.t6 + m3.2) % two64
  let c4 := (t.t6 + m3.2) / two64
  let s7 := (t.t7 + c4) % two64
  ⟨t.t0, t.t1, m0.1, m1.1, m2.1, m3.1, s6, s7⟩

/-- Montgomery reduction round `i = 3`. -/
def red_row3 (t : Limbs8) : Limbs8 :=
  let k := t.t3 * MU % two64
  let m0 := macc k MODULUS.l0 t.t3 0
  let m1 := macc k MODULUS.l1 t.t4 m0.2
  let m2 := macc k MODULUS.l2 t.t5 m1.2
  let m3 := macc k MODULUS.l3 t.t6 m2.2
  let s7 := (t.t7 + m3.2) % two64
  ⟨t.t0, t.t1, t.t2, m0.1, m1.1, m2.1, m3.1, s7⟩

/-- Montgomery multiplication `(a * b * R^{-1}) mod q` (`fn montgomery_mul`):
schoolbook product, four reduction rounds, and a conditional final subtraction
of the modulus. -/
def montgomery_mul (a b : ScalarField) : ScalarField :=
  let t := red_row3 (red_row2 (red_row1 (red_row0 (mul_256 a.limbs b.limbs))))
  let result : Limbs4 := ⟨t.t4, t.t5, t.t6, t.t7⟩
  if is_canonical result then ⟨result⟩ else ⟨sub_mod result MODULUS⟩

namespace ScalarField

/-- `ScalarField::ZERO`. -/
def ZERO : ScalarField := ⟨⟨0, 0, 0, 0⟩⟩

/-- `ScalarField::ONE` (the Montgomery form `R mod q`). -/
def ONE : ScalarField := ⟨Rconst⟩

/-- `ScalarField::from_canonical_u64`. -/
def from_canonical_u64 (val : Nat) : ScalarField :=
  montgomery_mul ⟨⟨val % two64, 0, 0, 0⟩⟩ ⟨R2⟩

/-- `ScalarField::to_canonical_u64_vec`: leave Montgomery form by multiplying
with one. -/
def to_canonical_u64_vec (s : ScalarField) : Limbs4 :=
  (montgomery_mul s ⟨⟨1, 0, 0, 0⟩⟩).limbs

/-- `ScalarField::from_canonical_limbs`: enter Montgomery form by multiplying
with `R^2`. -/
def from_canonical_limbs (limbs : Limbs4) : ScalarField :=
  montgomery_mul ⟨limbs⟩ ⟨R2⟩

/-- `impl Add for ScalarField`. -/
def add (a b : ScalarField) : ScalarField := ⟨add_mod a.limbs b.limbs⟩

/-- `impl Sub for ScalarField`. -/
def sub (a b : ScalarField) : ScalarField := ⟨sub_mod a.limbs b.limbs⟩

/-- `impl Neg for ScalarField`. -/
def neg (a : ScalarField) : ScalarField := ⟨neg_mod a.limbs⟩

/-- `impl Mul for ScalarField`. -/
def mul (a b : ScalarField) : ScalarField := montgomery_mul a b

/-- `ScalarField::is_zero`. -/
def is_zero (a : ScalarField) : Bool := decide (a.limbs = ⟨0, 0, 0, 0⟩)

end ScalarField

/-! ### Value-level semantics of the limb vectors -/

/-- The integer value of a little-endian 4-limb vector. -/
def val4 (a : Limbs4) : Nat := a.l0 + two64 * (a.l1 + two64 * (a.l2 + two64 * a.l3))

/-- The integer value of the 8-limb `t` buffer. -/
def val8 (t : Limbs8) : Nat :=
  t.t0 + two64 * (t.t1 + two64 * (t.t2 + two64 * (t.t3 + two64 * (t.t4 + two64 *
    (t.t5 + two64 * (t.t6 + two64 * t.t7))))))

/-- All four limbs fit in `u64`. -/
def wf4 (a : Limbs4) : Prop := a.l0 < two64 ∧ a.l1 < two64 ∧ a.l2 < two64 ∧ a.l3 < two64

/-- All eight limbs fit in `u64`. -/
def wf8 (t : Limbs8) : Prop :=
  t.t0 < two64 ∧ t.t1 < two64 ∧ t.t2 < two64 ∧ t.t3 < two64 ∧ t.t4 < two64 ∧
    t.t5 < two64 ∧ t.t6 < two64 ∧ t.t7 < two64

instance (a : Limbs4) : Decidable (wf4 a) := by unfold wf4; infer_instance

instance (t : Limbs8) : Decidable (wf8 t) := by unfold wf8; infer_instance

/-- The scalar-field modulus as an integer. -/
def qVal : Nat := 424804331891979973455971894938199991855800421968298112348210302325367590273

theorem qVal_eq_val4_MODULUS : val4 MODULUS = qVal := by decide

theorem val4_lt (a : Limbs4) (h : wf4 a) : val4 a < two64 * two64 * two64 * two64 := by
  obtain ⟨h0, h1, h2, h3⟩ := h
  simp only [val4, two64] at *
  omega

theorem val4_inj {a b : Limbs4} (ha : wf4 a) (hb : wf4 b) (h : val4 a = val4 b) : a = b := by
  obtain ⟨ha0, ha1, ha2, ha3⟩ := ha
  obtain ⟨hb0, hb1, hb2, hb3⟩ := hb
  simp only [val4, two64] at *
  ext
  · omega
  · omega
  · omega
  · omega

/-! ### Value-level correctness of the scalar-field limb arithmetic -/

/-- The literal `2^256`. -/
def two256 : Nat := 115792089237316195423570985008687907853269984665640564039457584007913129639936

/-- The literal `2^512`. -/
def two512 : Nat :=
  13407807929942597099574024998205846127479365820592393377723561443721764030073546976801874298166903427690031858186486050853753882811946569946433649006084096

theorem two256_eq : two256 = two64 * two64 * two64 * two64 := by decide

theorem two512_eq : two512 = two256 * two256 := by decide

theorem wf4_MODULUS : wf4 MODULUS := by decide

theorem wf4_R2 : wf4 R2 := by decide

theorem val4_R2_lt : val4 R2 < qVal := by decide

theorem bool_eq_false_of_ne {b : Bool} (h : ¬b = true) : b = false := by
  cases b
  · rfl
  · exact absurd rfl h

theorem bool_eq_true_of_ne {b : Bool} (h : ¬b = false) : b = true := by
  cases b
  · exact absurd rfl h
  · rfl

theorem borrowing_sub_fst_lt (a b : Nat) (c : Bool) : (borrowing_sub a b c).1 < two64 := by
  simp only [borrowing_sub]
  exact Nat.mod_lt _ (by decide)

theorem carrying_add_fst_lt (a b : Nat) (c : Bool) : (carrying_add a b c).1 < two64 := by
  simp only [carrying_add]
  exact Nat.mod_lt _ (by decide)

theorem carrying_add_eq (a b : Nat) (c : Bool) (ha : a < two64) (hb : b < two64) :
    carrying_add a b c =
      ((a + b + (if c then 1 else 0)) % two64,
        decide (a + b + (if c then 1 else 0) ≥ two64)) := by
  have h64 : (18446744073709551616 : Nat) = two64 := rfl
  cases c
  · simp only [carrying_add, Bool.false_eq_true, if_false, Prod.mk.injEq]
    rw [← h64] at ha hb ⊢
    constructor
    · omega
    · rw [Bool.eq_iff_iff]
      simp only [Bool.or_eq_true, decide_eq_true_eq]
      omega
  · simp only [carrying_add, if_true, Prod.mk.injEq]
    rw [← h64] at ha hb ⊢
    constructor
    · omega
    · rw [Bool.eq_iff_iff]
      simp only [Bool.or_eq_true, decide_eq_true_eq]
      omega

theorem borrowing_sub_eq (a b : Nat) (c : Bool) (ha : a < two64) (hb : b < two64) :
    borrowing_sub a b c =
      ((a + two64 + two64 - b - (if c then 1 else 0)) % two64,
        decide (a < b + (if c then 1 else 0))) := by
  have h64 : (18446744073709551616 : Nat) = two64 := rfl
  cases c
  · simp only [borrowing_sub, Bool.false_eq_true, if_false, Prod.mk.injEq]
    rw [← h64] at ha hb ⊢
    constructor
    · omega
    · rw [Bool.eq_iff_iff]
      simp only [Bool.or_eq_true, decide_eq_true_eq]
      omega
  · simp only [borrowing_sub, if_true, Prod.mk.injEq]
    rw [← h64] at ha hb ⊢
    constructor
    · omega
    · rw [Bool.eq_iff_iff]
      simp only [Bool.or_eq_true, decide_eq_true_eq]
      omega

theorem bchain (x0 x1 x2 x3 y0 y1 y2 y3 : Nat) (hx0 : x0 < two64) (hx1 : x1 < two64)
    (hx2 : x2 < two64) (hx3 : x3 < two64) (hy0 : y0 < two64) (hy1 : y1 < two64)
    (hy2 : y2 < two64) (hy3 : y3 < two64) :
    (x0 + two64 - y0) % two64 + two64 *
      ((borrowing_sub x1 y1 (decide (x0 < y0))).1 + two64 *
        ((borrowing_sub x2 y2 (borrowing_sub x1 y1 (decide (x0 < y0))).2).1 + two64 *
          (borrowing_sub x3 y3 (borrowing_sub x2 y2 (borrowing_sub x1 y1
            (decide (x0 < y0))).2).2).1)) =
      (x0 + two64 * (x1 + two64 * (x2 + two64 * x3)) + two256 -
        (y0 + two64 * (y1 + two64 * (y2 + two64 * y3)))) %
        (two256) ∧
    ((borrowing_sub x3 y3 (borrowing_sub x2 y2 (borrowing_sub x1 y1
        (decide (x0 < y0))).2).2).2 = true ↔
      x0 + two64 * (x1 + two64 * (x2 + two64 * x3)) <
        y0 + two64 * (y1 + two64 * (y2 + two64 * y3))) := by
  rw [borrowing_sub_eq x1 y1 _ hx1 hy1, borrowing_sub_eq x2 y2 _ hx2 hy2,
    borrowing_sub_eq x3 y3 _ hx3 hy3]
  simp only [two64, two256, two512, qVal] at *
  constructor
  · split_ifs <;> simp only [decide_eq_true_eq] at * <;> omega
  · simp only [decide_eq_true_eq]
    split_ifs <;> simp only [decide_eq_true_eq] at * <;> omega

theorem cchain (x0 x1 x2 x3 y0 y1 y2 y3 : Nat) (hx0 : x0 < two64) (hx1 : x1 < two64)
    (hx2 : x2 < two64) (hx3 : x3 < two64) (hy0 : y0 < two64) (hy1 : y1 < two64)
    (hy2 : y2 < two64) (hy3 : y3 < two64) :
    (x0 + y0) % two64 + two64 *
      ((carrying_add x1 y1 (decide (x0 + y0 ≥ two64))).1 + two64 *
        ((carrying_add x2 y2 (carrying_add x1 y1 (decide (x0 + y0 ≥ two64))).2).1 + two64 *
          (carrying_add x3 y3 (carrying_add x2 y2 (carrying_add x1 y1
            (decide (x0 + y0 ≥ two64))).2).2).1)) =
      (x0 + two64 * (x1 + two64 * (x2 + two64 * x3)) +
        (y0 + two64 * (y1 + two64 * (y2 + two64 * y3)))) %
        (two256) ∧
    ((carrying_add x3 y3 (carrying_add x2 y2 (carrying_add x1 y1
        (decide (x0 + y0 ≥ two64))).2).2).2 = true ↔
      x0 + two64 * (x1 + two64 * (x2 + two64 * x3)) +
          (y0 + two64 * (y1 + two64 * (y2 + two64 * y3))) ≥
        two256) := by
  rw [carrying_add_eq x1 y1 _ hx1 hy1, carrying_add_eq x2 y2 _ hx2 hy2,
    carrying_add_eq x3 y3 _ hx3 hy3]
  simp only [two64, two256, two512, qVal] at *
  constructor
  · split_ifs <;> simp only [decide_eq_true_eq] at * <;> omega
  · simp only [decide_eq_true_eq]
    split_ifs <;> simp only [decide_eq_true_eq] at * <;> omega

theorem is_canonical_iff (l : Limbs4) (h : wf4 l) : is_canonical l = true ↔ val4 l < qVal := by
  obtain ⟨h0, h1, h2, h3⟩ := h
  have HC := (bchain l.l0 l.l1 l.l2 l.l3 MODULUS.l0 MODULUS.l1 MODULUS.l2 MODULUS.l3
    h0 h1 h2 h3 (by decide) (by decide) (by decide) (by decide)).2
  simp only [is_canonical]
  rw [HC]
  have hM : MODULUS.l0 + two64 * (MODULUS.l1 + two64 * (MODULUS.l2 + two64 * MODULUS.l3)) =
      qVal := by decide
  rw [hM, val4]

theorem sub_mod_val_ge (a b : Limbs4) (ha : wf4 a) (hb : wf4 b) (h : val4 b ≤ val4 a) :
    wf4 (sub_mod a b) ∧ val4 (sub_mod a b) = val4 a - val4 b := by
  obtain ⟨ha0, ha1, ha2, ha3⟩ := ha
  obtain ⟨hb0, hb1, hb2, hb3⟩ := hb
  have HC := bchain a.l0 a.l1 a.l2 a.l3 b.l0 b.l1 b.l2 b.l3 ha0 ha1 ha2 ha3 hb0 hb1 hb2 hb3
  simp only [val4] at h
  simp only [sub_mod]
  split_ifs with hcond
  · exact absurd (HC.2.mp hcond) (by omega)
  · simp only [wf4, val4]
    refine ⟨⟨Nat.mod_lt _ (by decide), borrowing_sub_fst_lt _ _ _,
      borrowing_sub_fst_lt _ _ _, borrowing_sub_fst_lt _ _ _⟩, ?_⟩
    rw [HC.1]
    clear HC
    simp only [two64, two256, two512, qVal] at *
    omega

theorem sub_mod_val (a b : Limbs4) (ha : wf4 a) (hb : wf4 b) (hva : val4 a < qVal)
    (hvb : val4 b < qVal) :
    wf4 (sub_mod a b) ∧ val4 (sub_mod a b) = (qVal + val4 a - val4 b) % qVal := by
  obtain ⟨ha0, ha1, ha2, ha3⟩ := ha
  obtain ⟨hb0, hb1, hb2, hb3⟩ := hb
  have HC := bchain a.l0 a.l1 a.l2 a.l3 b.l0 b.l1 b.l2 b.l3 ha0 ha1 ha2 ha3 hb0 hb1 hb2 hb3
  simp only [val4] at hva hvb
  simp only [sub_mod]
  split_ifs with hcond
  · have hlt := HC.2.mp hcond
    have HA := cchain ((a.l0 + two64 - b.l0) % two64)
      (borrowing_sub a.l1 b.l1 (decide (a.l0 < b.l0))).1
      (borrowing_sub a.l2 b.l2 (borrowing_sub a.l1 b.l1 (decide (a.l0 < b.l0))).2).1
      (borrowing_sub a.l3 b.l3 (borrowing_sub a.l2 b.l2 (borrowing_sub a.l1 b.l1
        (decide (a.l0 < b.l0))).2).2).1
      MODULUS.l0 MODULUS.l1 MODULUS.l2 MODULUS.l3
      (Nat.mod_lt _ (by decide)) (borrowing_sub_fst_lt _ _ _) (borrowing_sub_fst_lt _ _ _)
      (borrowing_sub_fst_lt _ _ _) (by decide) (by decide) (by decide) (by decide)
    simp only [wf4, val4]
    refine ⟨⟨Nat.mod_lt _ (by decide), carrying_add_fst_lt _ _ _,
      carrying_add_fst_lt _ _ _, carrying_add_fst_lt _ _ _⟩, ?_⟩
    rw [HA.1]
    have hM : MODULUS.l0 + two64 * (MODULUS.l1 + two64 * (MODULUS.l2 + two64 * MODULUS.l3)) =
        qVal := by decide
    rw [hM]
    have hr := HC.1
    clear HC HA hcond hM
    simp only [two64, two256, two512, qVal] at *
    omega
  · have hge : ¬(a.l0 + two64 * (a.l1 + two64 * (a.l2 + two64 * a.l3)) <
        b.l0 + two64 * (b.l1 + two64 * (b.l2 + two64 * b.l3))) :=
      fun hc => hcond (HC.2.mpr hc)
    simp only [wf4, val4]
    refine ⟨⟨Nat.mod_lt _ (by decide), borrowing_sub_fst_lt _ _ _,
      borrowing_sub_fst_lt _ _ _, borrowing_sub_fst_lt _ _ _⟩, ?_⟩
    rw [HC.1]
    clear HC
    simp only [two64, two256, two512, qVal] at *
    omega

theorem add_mod_val (a b : Limbs4) (ha : wf4 a) (hb : wf4 b) (hva : val4 a < qVal)
    (hvb : val4 b < qVal) :
    wf4 (add_mod a b) ∧ val4 (add_mod a b) = (val4 a + val4 b) % qVal := by
  obtain ⟨ha0, ha1, ha2, ha3⟩ := ha
  obtain ⟨hb0, hb1, hb2, hb3⟩ := hb
  have HA := cchain a.l0 a.l1 a.l2 a.l3 b.l0 b.l1 b.l2 b.l3 ha0 ha1 ha2 ha3 hb0 hb1 hb2 hb3
  have HB := bchain ((a.l0 + b.l0) % two64)
    (carrying_add a.l1 b.l1 (decide (a.l0 + b.l0 ≥ two64))).1
    (carrying_add a.l2 b.l2 (carrying_add a.l1 b.l1 (decide (a.l0 + b.l0 ≥ two64))).2).1
    (carrying_add a.l3 b.l3 (carrying_add a.l2 b.l2 (carrying_add a.l1 b.l1
      (decide (a.l0 + b.l0 ≥ two64))).2).2).1
    MODULUS.l0 MODULUS.l1 MODULUS.l2 MODULUS.l3
    (Nat.mod_lt _ (by decide)) (carrying_add_fst_lt _ _ _) (carrying_add_fst_lt _ _ _)
    (carrying_add_fst_lt _ _ _) (by decide) (by decide) (by decide) (by decide)
  have hM : MODULUS.l0 + two64 * (MODULUS.l1 + two64 * (MODULUS.l2 + two64 * MODULUS.l3)) =
      qVal := by decide
  rw [hM] at HB
  simp only [val4] at hva hvb
  simp only [add_mod]
  split_ifs with hcond
  · simp only [Bool.or_eq_true, Bool.not_eq_true'] at hcond
    simp only [wf4, val4]
    refine ⟨⟨Nat.mod_lt _ (by decide), borrowing_sub_fst_lt _ _ _,
      borrowing_sub_fst_lt _ _ _, borrowing_sub_fst_lt _ _ _⟩, ?_⟩
    rw [HB.1]
    have hsum := HA.1
    rcases hcond with hy | hy
    · have h1 := HA.2.mp hy
      clear HA HB hy hM
      simp only [two64, two256, two512, qVal] at *
      omega
    · have h1 : ¬((a.l0 + b.l0) % two64 + two64 *
            ((carrying_add a.l1 b.l1 (decide (a.l0 + b.l0 ≥ two64))).1 + two64 *
              ((carrying_add a.l2 b.l2 (carrying_add a.l1 b.l1 (decide (a.l0 + b.l0 ≥
                two64))).2).1 + two64 * (carrying_add a.l3 b.l3 (carrying_add a.l2 b.l2
                (carrying_add a.l1 b.l1 (decide (a.l0 + b.l0 ≥ two64))).2).2).1)) < qVal) :=
        fun hc => absurd (HB.2.mpr hc) (by rw [hy]; exact Bool.false_ne_true)
      have hS : a.l0 + two64 * (a.l1 + two64 * (a.l2 + two64 * a.l3)) +
          (b.l0 + two64 * (b.l1 + two64 * (b.l2 + two64 * b.l3))) < two256 := by
        simp only [two64, two256, qVal] at hva hvb ⊢
        omega
      rw [Nat.mod_eq_of_lt hS] at hsum
      clear HA HB hy hM
      simp only [two64, two256, two512, qVal] at *
      omega
  · simp only [Bool.or_eq_true, Bool.not_eq_true'] at hcond
    push_neg at hcond
    have hcy : ¬(a.l0 + two64 * (a.l1 + two64 * (a.l2 + two64 * a.l3)) +
          (b.l0 + two64 * (b.l1 + two64 * (b.l2 + two64 * b.l3))) ≥
        two256) :=
      fun hc => hcond.1 ((HA.2).mpr hc)
    have hbr := HB.2.mp (bool_eq_true_of_ne hcond.2)
    have hS : a.l0 + two64 * (a.l1 + two64 * (a.l2 + two64 * a.l3)) +
        (b.l0 + two64 * (b.l1 + two64 * (b.l2 + two64 * b.l3))) < two256 := by
      simp only [two64, two256, qVal] at hva hvb ⊢
      omega
    rw [HA.1] at hbr
    rw [Nat.mod_eq_of_lt hS] at hbr
    simp only [wf4, val4]
    refine ⟨⟨Nat.mod_lt _ (by decide), carrying_add_fst_lt _ _ _,
      carrying_add_fst_lt _ _ _, carrying_add_fst_lt _ _ _⟩, ?_⟩
    rw [HA.1, Nat.mod_eq_of_lt hS]
    clear HA HB hcond hM
    simp only [two64, two256, two512, qVal] at *
    omega

theorem neg_mod_val (a : Limbs4) (ha : wf4 a) (hva : val4 a < qVal) :
    wf4 (neg_mod a) ∧ val4 (neg_mod a) = (qVal - val4 a) % qVal := by
  rw [neg_mod]
  split_ifs with hz
  · obtain ⟨hz0, hz1, hz2, hz3⟩ := hz
    have hv : val4 a = 0 := by
      rw [val4, hz0, hz1, hz2, hz3]
      ring
    rw [hv]
    exact ⟨by decide, by decide⟩
  · have hle : val4 a ≤ val4 MODULUS := by
      rw [qVal_eq_val4_MODULUS]
      omega
    have hs := sub_mod_val_ge MODULUS a wf4_MODULUS ha hle
    refine ⟨hs.1, ?_⟩
    rw [hs.2, qVal_eq_val4_MODULUS]
    have hpos : 0 < val4 a := by
      simp only [val4, two64]
      by_contra hc
      push_neg at hc
      apply hz
      refine ⟨?_, ?_, ?_, ?_⟩ <;> omega
    rw [Nat.mod_eq_of_lt]
    omega

theorem mont_k (x : Nat) :
    (x + x * MU % 18446744073709551616 * 17443936660993166721) % 18446744073709551616 = 0 := by
  have h : ((x + x * MU % 18446744073709551616 * 17443936660993166721 : Nat) :
      ZMod 18446744073709551616) = 0 := by
    push_cast
    rw [ZMod.natCast_mod]
    push_cast
    have hC : (1 + (MU : ZMod 18446744073709551616) * 17443936660993166721) = 0 := by
      rw [show (MU : Nat) = 10528608854857682303 from rfl]
      decide
    linear_combination (x : ZMod 18446744073709551616) * hC
  have hd := (ZMod.natCast_zmod_eq_zero_iff_dvd _ _).mp h
  omega

theorem mrow4 (k y0 y1 y2 y3 x0 x1 x2 x3 : Nat) (hk : k < 18446744073709551616)
    (hy0 : y0 < 18446744073709551616) (hy1 : y1 < 18446744073709551616)
    (hy2 : y2 < 18446744073709551616) (hy3 : y3 < 18446744073709551616)
    (hx0 : x0 < 18446744073709551616) (hx1 : x1 < 18446744073709551616)
    (hx2 : x2 < 18446744073709551616) (hx3 : x3 < 18446744073709551616) :
    (macc k y0 x0 0).1 < 18446744073709551616 ∧
    (macc k y1 x1 (macc k y0 x0 0).2).1 < 18446744073709551616 ∧
    (macc k y2 x2 (macc k y1 x1 (macc k y0 x0 0).2).2).1 < 18446744073709551616 ∧
    (macc k y3 x3 (macc k y2 x2 (macc k y1 x1 (macc k y0 x0 0).2).2).2).1 <
      18446744073709551616 ∧
    (macc k y3 x3 (macc k y2 x2 (macc k y1 x1 (macc k y0 x0 0).2).2).2).2 <
      18446744073709551616 ∧
    (macc k y0 x0 0).1 + 18446744073709551616 * ((macc k y1 x1 (macc k y0 x0 0).2).1 +
        18446744073709551616 * ((macc k y2 x2 (macc k y1 x1 (macc k y0 x0 0).2).2).1 +
          18446744073709551616 *
            (macc k y3 x3 (macc k y2 x2 (macc k y1 x1 (macc k y0 x0 0).2).2).2).1)) +
      two256 * (macc k y3 x3 (macc k y2 x2 (macc k y1 x1 (macc k y0 x0 0).2).2).2).2 =
      k * y0 + 18446744073709551616 * (k * y1) +
        340282366920938463463374607431768211456 * (k * y2) +
        6277101735386680763835789423207666416102355444464034512896 * (k * y3) +
        (x0 + 18446744073709551616 * (x1 + 18446744073709551616 *
          (x2 + 18446744073709551616 * x3))) := by
  have hp0 : k * y0 ≤ 18446744073709551615 * 18446744073709551615 :=
    Nat.mul_le_mul (by omega) (by omega)
  have hp1 : k * y1 ≤ 18446744073709551615 * 18446744073709551615 :=
    Nat.mul_le_mul (by omega) (by omega)
  have hp2 : k * y2 ≤ 18446744073709551615 * 18446744073709551615 :=
    Nat.mul_le_mul (by omega) (by omega)
  have hp3 : k * y3 ≤ 18446744073709551615 * 18446744073709551615 :=
    Nat.mul_le_mul (by omega) (by omega)
  simp only [macc, two64, two256]
  refine ⟨?_, ?_, ?_, ?_, ?_, ?_⟩ <;> omega

theorem cprop4 (x0 x1 x2 x3 c : Nat) (hx0 : x0 < 18446744073709551616)
    (hx1 : x1 < 18446744073709551616) (hx2 : x2 < 18446744073709551616)
    (hx3 : x3 < 18446744073709551616)
    (hb : x0 + 18446744073709551616 * (x1 + 18446744073709551616 *
      (x2 + 18446744073709551616 * x3)) + c < two256) :
    (x0 + c) % 18446744073709551616 +
      18446744073709551616 * ((x1 + (x0 + c) / 18446744073709551616) % 18446744073709551616 +
        18446744073709551616 *
          ((x2 + (x1 + (x0 + c) / 18446744073709551616) / 18446744073709551616) %
              18446744073709551616 +
            18446744073709551616 *
              ((x3 + (x2 + (x1 + (x0 + c) / 18446744073709551616) / 18446744073709551616) /
                  18446744073709551616) % 18446744073709551616))) =
      x0 + 18446744073709551616 * (x1 + 18446744073709551616 *
        (x2 + 18446744073709551616 * x3)) + c := by
  simp only [two256] at hb
  omega

theorem cprop3 (x0 x1 x2 c : Nat) (hx0 : x0 < 18446744073709551616)
    (hx1 : x1 < 18446744073709551616) (hx2 : x2 < 18446744073709551616)
    (hb : x0 + 18446744073709551616 * (x1 + 18446744073709551616 * x2) + c <
      6277101735386680763835789423207666416102355444464034512896) :
    (x0 + c) % 18446744073709551616 +
      18446744073709551616 * ((x1 + (x0 + c) / 18446744073709551616) % 18446744073709551616 +
        18446744073709551616 *
          ((x2 + (x1 + (x0 + c) / 18446744073709551616) / 18446744073709551616) %
            18446744073709551616)) =
      x0 + 18446744073709551616 * (x1 + 18446744073709551616 * x2) + c := by
  omega

theorem cprop2 (x0 x1 c : Nat) (hx0 : x0 < 18446744073709551616)
    (hx1 : x1 < 18446744073709551616)
    (hb : x0 + 18446744073709551616 * x1 + c <
      340282366920938463463374607431768211456) :
    (x0 + c) % 18446744073709551616 +
      18446744073709551616 * ((x1 + (x0 + c) / 18446744073709551616) %
        18446744073709551616) =
      x0 + 18446744073709551616 * x1 + c := by
  omega

theorem cprop1 (x0 c : Nat) (hx0 : x0 < 18446744073709551616)
    (hb : x0 + c < 18446744073709551616) :
    (x0 + c) % 18446744073709551616 = x0 + c := by
  omega

theorem macc_fst (a b t c : Nat) : (macc a b t c).1 = (a * b + t + c) % two64 := rfl

theorem red_row0_val (t : Limbs8) (h : wf8 t)
    (hbound : val8 t + t.t0 * MU % two64 * qVal < two512) :
    wf8 (red_row0 t) ∧ (red_row0 t).t0 = 0 ∧
      val8 (red_row0 t) = val8 t + t.t0 * MU % two64 * qVal := by
  obtain ⟨h0, h1, h2, h3, h4, h5, h6, h7⟩ := h
  simp only [two64] at h0 h1 h2 h3 h4 h5 h6 h7
  have hk : t.t0 * MU % 18446744073709551616 < 18446744073709551616 :=
    Nat.mod_lt _ (by decide)
  have HM := mrow4 (t.t0 * MU % 18446744073709551616) 17443936660993166721
    17896403521435101434 4680913926326678671 67675234495113892 t.t0 t.t1 t.t2 t.t3
    hk (by decide) (by decide) (by decide) (by decide) h0 h1 h2 h3
  have hdiv := mont_k t.t0
  simp only [val8, two64, qVal, two512] at hbound
  have hval := HM.2.2.2.2.2
  have hcb := HM.2.2.2.2.1
  simp only [two256] at hval
  have hc256 : t.t4 + 18446744073709551616 * (t.t5 + 18446744073709551616 *
      (t.t6 + 18446744073709551616 * t.t7)) +
      (macc (t.t0 * MU % 18446744073709551616) 67675234495113892 t.t3
        (macc (t.t0 * MU % 18446744073709551616) 4680913926326678671 t.t2
          (macc (t.t0 * MU % 18446744073709551616) 17896403521435101434 t.t1
            (macc (t.t0 * MU % 18446744073709551616) 17443936660993166721 t.t0
              0).2).2).2).2 < two256 := by
    simp only [two256]
    omega
  have HC := cprop4 t.t4 t.t5 t.t6 t.t7 _ h4 h5 h6 h7 hc256
  simp only [red_row0, wf8, val8, MODULUS, two64, qVal]
  refine ⟨⟨HM.1, HM.2.1, HM.2.2.1, HM.2.2.2.1, Nat.mod_lt _ (by decide),
    Nat.mod_lt _ (by decide), Nat.mod_lt _ (by decide), Nat.mod_lt _ (by decide)⟩, ?_, ?_⟩
  · rw [macc_fst]
    simp only [two64]
    omega
  · rw [HC]
    omega

theorem red_row1_val (t : Limbs8) (h : wf8 t)
    (hbound : val8 t + t.t1 * MU % two64 * qVal * two64 < two512) :
    wf8 (red_row1 t) ∧ (red_row1 t).t0 = t.t0 ∧ (red_row1 t).t1 = 0 ∧
      val8 (red_row1 t) = val8 t + t.t1 * MU % two64 * qVal * two64 := by
  obtain ⟨h0, h1, h2, h3, h4, h5, h6, h7⟩ := h
  simp only [two64] at h0 h1 h2 h3 h4 h5 h6 h7
  have hk : t.t1 * MU % 18446744073709551616 < 18446744073709551616 :=
    Nat.mod_lt _ (by decide)
  have HM := mrow4 (t.t1 * MU % 18446744073709551616) 17443936660993166721
    17896403521435101434 4680913926326678671 67675234495113892 t.t1 t.t2 t.t3 t.t4
    hk (by decide) (by decide) (by decide) (by decide) h1 h2 h3 h4
  have hdiv := mont_k t.t1
  simp only [val8, two64, qVal, two512] at hbound
  have hval := HM.2.2.2.2.2
  have hcb := HM.2.2.2.2.1
  simp only [two256] at hval
  have hc192 : t.t5 + 18446744073709551616 * (t.t6 + 18446744073709551616 * t.t7) +
      (macc (t.t1 * MU % 18446744073709551616) 67675234495113892 t.t4
        (macc (t.t1 * MU % 18446744073709551616) 4680913926326678671 t.t3
          (macc (t.t1 * MU % 18446744073709551616) 17896403521435101434 t.t2
            (macc (t.t1 * MU % 18446744073709551616) 17443936660993166721 t.t1
              0).2).2).2).2 <
      6277101735386680763835789423207666416102355444464034512896 := by
    omega
  have HC := cprop3 t.t5 t.t6 t.t7 _ h5 h6 h7 hc192
  simp only [red_row1, wf8, val8, MODULUS, two64, qVal]
  refine ⟨⟨h0, HM.1, HM.2.1, HM.2.2.1, HM.2.2.2.1, Nat.mod_lt _ (by decide),
    Nat.mod_lt _ (by decide), Nat.mod_lt _ (by decide)⟩, trivial, ?_, ?_⟩
  · rw [macc_fst]
    simp only [two64]
    omega
  · rw [HC]
    omega

theorem red_row2_val (t : Limbs8) (h : wf8 t)
    (hbound : val8 t + t.t2 * MU % two64 * qVal * (two64 * two64) < two512) :
    wf8 (red_row2 t) ∧ (red_row2 t).t0 = t.t0 ∧ (red_row2 t).t1 = t.t1 ∧
      (red_row2 t).t2 = 0 ∧
      val8 (red_row2 t) = val8 t + t.t2 * MU % two64 * qVal * (two64 * two64) := by
  obtain ⟨h0, h1, h2, h3, h4, h5, h6, h7⟩ := h
  simp only [two64] at h0 h1 h2 h3 h4 h5 h6 h7
  have hk : t.t2 * MU % 18446744073709551616 < 18446744073709551616 :=
    Nat.mod_lt _ (by decide)
  have HM := mrow4 (t.t2 * MU % 18446744073709551616) 17443936660993166721
    17896403521435101434 4680913926326678671 67675234495113892 t.t2 t.t3 t.t4 t.t5
    hk (by decide) (by decide) (by decide) (by decide) h2 h3 h4 h5
  have hdiv := mont_k t.t2
  simp only [val8, two64, qVal, two512] at hbound
  have hval := HM.2.2.2.2.2
  have hcb := HM.2.2.2.2.1
  simp only [two256] at hval
  have hc128 : t.t6 + 18446744073709551616 * t.t7 +
      (macc (t.t2 * MU % 18446744073709551616) 67675234495113892 t.t5
        (macc (t.t2 * MU % 18446744073709551616) 4680913926326678671 t.t4
          (macc (t.t2 * MU % 18446744073709551616) 17896403521435101434 t.t3
            (macc (t.t2 * MU % 18446744073709551616) 17443936660993166721 t.t2
              0).2).2).2).2 <
      340282366920938463463374607431768211456 := by
    omega
  have HC := cprop2 t.t6 t.t7 _ h6 h7 hc128
  simp only [red_row2, wf8, val8, MODULUS, two64, qVal]
  refine ⟨⟨h0, h1, HM.1, HM.2.1, HM.2.2.1, HM.2.2.2.1, Nat.mod_lt _ (by decide),
    Nat.mod_lt _ (by decide)⟩, trivial, trivial, ?_, ?_⟩
  · rw [macc_fst]
    simp only [two64]
    omega
  · rw [HC]
    omega

theorem red_row3_val (t : Limbs8) (h : wf8 t)
    (hbound : val8 t + t.t3 * MU % two64 * qVal * (two64 * two64 * two64) < two512) :
    wf8 (red_row3 t) ∧ (red_row3 t).t0 = t.t0 ∧ (red_row3 t).t1 = t.t1 ∧
      (red_row3 t).t2 = t.t2 ∧ (red_row3 t).t3 = 0 ∧
      val8 (red_row3 t) = val8 t + t.t3 * MU % two64 * qVal * (two64 * two64 * two64) := by
  obtain ⟨h0, h1, h2, h3, h4, h5, h6, h7⟩ := h
  simp only [two64] at h0 h1 h2 h3 h4 h5 h6 h7
  have hk : t.t3 * MU % 18446744073709551616 < 18446744073709551616 :=
    Nat.mod_lt _ (by decide)
  have HM := mrow4 (t.t3 * MU % 18446744073709551616) 17443936660993166721
    17896403521435101434 4680913926326678671 67675234495113892 t.t3 t.t4 t.t5 t.t6
    hk (by decide) (by decide) (by decide) (by decide) h3 h4 h5 h6
  have hdiv := mont_k t.t3
  simp only [val8, two64, qVal, two512] at hbound
  have hval := HM.2.2.2.2.2
  have hcb := HM.2.2.2.2.1
  simp only [two256] at hval
  have hc64 : t.t7 +
      (macc (t.t3 * MU % 18446744073709551616) 67675234495113892 t.t6
        (macc (t.t3 * MU % 18446744073709551616) 4680913926326678671 t.t5
          (macc (t.t3 * MU % 18446744073709551616) 17896403521435101434 t.t4
            (macc (t.t3 * MU % 18446744073709551616) 17443936660993166721 t.t3
              0).2).2).2).2 < 18446744073709551616 := by
    omega
  have HC := cprop1 t.t7 _ h7 hc64
  simp only [red_row3, wf8, val8, MODULUS, two64, qVal]
  refine ⟨⟨h0, h1, h2, HM.1, HM.2.1, HM.2.2.1, HM.2.2.2.1, Nat.mod_lt _ (by decide)⟩, trivial, trivial, trivial, ?_, ?_⟩
  · rw [macc_fst]
    simp only [two64]
    omega
  · rw [HC]
    omega

theorem mont_redc (u : Limbs8) (h : wf8 u) (hvu : val8 u < two256 * qVal) :
    wf8 (red_row3 (red_row2 (red_row1 (red_row0 u)))) ∧
    (red_row3 (red_row2 (red_row1 (red_row0 u)))).t0 = 0 ∧
    (red_row3 (red_row2 (red_row1 (red_row0 u)))).t1 = 0 ∧
    (red_row3 (red_row2 (red_row1 (red_row0 u)))).t2 = 0 ∧
    (red_row3 (red_row2 (red_row1 (red_row0 u)))).t3 = 0 ∧
    val8 (red_row3 (red_row2 (red_row1 (red_row0 u)))) % qVal = val8 u % qVal ∧
    val8 (red_row3 (red_row2 (red_row1 (red_row0 u)))) < two256 * qVal + two256 * qVal := by
  have hk0 : u.t0 * MU % two64 < two64 := Nat.mod_lt _ (by decide)
  have hb0 : val8 u + u.t0 * MU % two64 * qVal < two512 := by
    simp only [two64, two256, two512, qVal] at hvu hk0 ⊢
    omega
  have R0 := red_row0_val u h hb0
  have hk1 : (red_row0 u).t1 * MU % two64 < two64 := Nat.mod_lt _ (by decide)
  have hb1 : val8 (red_row0 u) + (red_row0 u).t1 * MU % two64 * qVal * two64 < two512 := by
    rw [R0.2.2]
    simp only [two64, two256, two512, qVal] at hvu hk0 hk1 ⊢
    omega
  have R1 := red_row1_val (red_row0 u) R0.1 hb1
  have hk2 : (red_row1 (red_row0 u)).t2 * MU % two64 < two64 := Nat.mod_lt _ (by decide)
  have hb2 : val8 (red_row1 (red_row0 u)) +
      (red_row1 (red_row0 u)).t2 * MU % two64 * qVal * (two64 * two64) < two512 := by
    rw [R1.2.2.2, R0.2.2]
    simp only [two64, two256, two512, qVal] at hvu hk0 hk1 hk2 ⊢
    omega
  have R2 := red_row2_val (red_row1 (red_row0 u)) R1.1 hb2
  have hk3 : (red_row2 (red_row1 (red_row0 u))).t3 * MU % two64 < two64 :=
    Nat.mod_lt _ (by decide)
  have hb3 : val8 (red_row2 (red_row1 (red_row0 u))) +
      (red_row2 (red_row1 (red_row0 u))).t3 * MU % two64 * qVal *
        (two64 * two64 * two64) < two512 := by
    rw [R2.2.2.2.2, R1.2.2.2, R0.2.2]
    simp only [two64, two256, two512, qVal] at hvu hk0 hk1 hk2 hk3 ⊢
    omega
  have R3 := red_row3_val (red_row2 (red_row1 (red_row0 u))) R2.1 hb3
  refine ⟨R3.1, ?_, ?_, ?_, ?_, ?_, ?_⟩
  · rw [R3.2.1, R2.2.1, R1.2.1, R0.2.1]
  · rw [R3.2.2.1, R2.2.2.1, R1.2.2.1]
  · rw [R3.2.2.2.1, R2.2.2.2.1]
  · exact R3.2.2.2.2.1
  · rw [R3.2.2.2.2.2, R2.2.2.2.2, R1.2.2.2, R0.2.2]
    simp only [two64, two256, qVal] at hk0 hk1 hk2 hk3 ⊢
    omega
  · rw [R3.2.2.2.2.2, R2.2.2.2.2, R1.2.2.2, R0.2.2]
    simp only [two64, two256, qVal] at hvu hk0 hk1 hk2 hk3 ⊢
    omega

theorem mul_row_val (ai : Nat) (b t : Limbs4) (hai : ai < two64) (hb : wf4 b) (ht : wf4 t) :
    wf4 (mul_row ai b t).1 ∧ (mul_row ai b t).2 < two64 ∧
    val4 (mul_row ai b t).1 + two256 * (mul_row ai b t).2 =
      ai * b.l0 + two64 * (ai * b.l1) + two64 * two64 * (ai * b.l2) +
        two64 * two64 * two64 * (ai * b.l3) + val4 t := by
  obtain ⟨hb0, hb1, hb2, hb3⟩ := hb
  obtain ⟨ht0, ht1, ht2, ht3⟩ := ht
  have hp0 : ai * b.l0 ≤ 18446744073709551615 * 18446744073709551615 :=
    Nat.mul_le_mul (by simp only [two64] at hai; omega) (by simp only [two64] at hb0; omega)
  have hp1 : ai * b.l1 ≤ 18446744073709551615 * 18446744073709551615 :=
    Nat.mul_le_mul (by simp only [two64] at hai; omega) (by simp only [two64] at hb1; omega)
  have hp2 : ai * b.l2 ≤ 18446744073709551615 * 18446744073709551615 :=
    Nat.mul_le_mul (by simp only [two64] at hai; omega) (by simp only [two64] at hb2; omega)
  have hp3 : ai * b.l3 ≤ 18446744073709551615 * 18446744073709551615 :=
    Nat.mul_le_mul (by simp only [two64] at hai; omega) (by simp only [two64] at hb3; omega)
  simp only [mul_row, macc, val4, wf4]
  simp only [two64, two256] at *
  refine ⟨⟨?_, ?_, ?_, ?_⟩, ?_, ?_⟩ <;> omega

theorem mul_256_val (a b : Limbs4) (ha : wf4 a) (hb : wf4 b) :
    wf8 (mul_256 a b) ∧ val8 (mul_256 a b) = val4 a * val4 b := by
  obtain ⟨ha0, ha1, ha2, ha3⟩ := ha
  set p0 := mul_row a.l0 b ⟨0, 0, 0, 0⟩ with hp0
  set t1 : Limbs4 := ⟨p0.1.l1, p0.1.l2, p0.1.l3, p0.2⟩ with ht1
  set p1 := mul_row a.l1 b t1 with hp1
  set t2 : Limbs4 := ⟨p1.1.l1, p1.1.l2, p1.1.l3, p1.2⟩ with ht2
  set p2 := mul_row a.l2 b t2 with hp2
  set t3 : Limbs4 := ⟨p2.1.l1, p2.1.l2, p2.1.l3, p2.2⟩ with ht3
  set p3 := mul_row a.l3 b t3 with hp3
  have H0 := mul_row_val a.l0 b ⟨0, 0, 0, 0⟩ ha0 hb (by decide)
  rw [← hp0] at H0
  have H1 := mul_row_val a.l1 b t1 ha1 hb ⟨H0.1.2.1, H0.1.2.2.1, H0.1.2.2.2, H0.2.1⟩
  rw [← hp1] at H1
  have H2 := mul_row_val a.l2 b t2 ha2 hb ⟨H1.1.2.1, H1.1.2.2.1, H1.1.2.2.2, H1.2.1⟩
  rw [← hp2] at H2
  have H3 := mul_row_val a.l3 b t3 ha3 hb ⟨H2.1.2.1, H2.1.2.2.1, H2.1.2.2.2, H2.2.1⟩
  rw [← hp3] at H3
  have hm : mul_256 a b =
      ⟨p0.1.l0, p1.1.l0, p2.1.l0, p3.1.l0, p3.1.l1, p3.1.l2, p3.1.l3, p3.2⟩ := rfl
  have key : val8 (mul_256 a b) =
      a.l0 * b.l0 + two64 * (a.l0 * b.l1 + a.l1 * b.l0) +
        two64 * two64 * (a.l0 * b.l2 + a.l1 * b.l1 + a.l2 * b.l0) +
        two64 * two64 * two64 *
          (a.l0 * b.l3 + a.l1 * b.l2 + a.l2 * b.l1 + a.l3 * b.l0) +
        two256 * (a.l1 * b.l3 + a.l2 * b.l2 + a.l3 * b.l1) +
        two256 * two64 * (a.l2 * b.l3 + a.l3 * b.l2) +
        two256 * two64 * two64 * (a.l3 * b.l3) := by
    rw [hm]
    simp only [val8]
    simp only [ht1, ht2, ht3, val4, wf4] at H0 H1 H2 H3
    simp only [two64, two256] at *
    omega
  have hwf : wf8 (mul_256 a b) := by
    rw [hm]
    exact ⟨H0.1.1, H1.1.1, H2.1.1, H3.1.1, H3.1.2.1, H3.1.2.2.1, H3.1.2.2.2, H3.2.1⟩
  refine ⟨hwf, ?_⟩
  rw [key, val4, val4, two256_eq]
  ring



theorem montgomery_mul_spec (a b : ScalarField) (ha : wf4 a.limbs) (hb : wf4 b.limbs)
    (hvb : val4 b.limbs < qVal) :
    wf4 (montgomery_mul a b).limbs ∧ val4 (montgomery_mul a b).limbs < qVal ∧
      val4 (montgomery_mul a b).limbs * two256 % qVal =
        val4 a.limbs * val4 b.limbs % qVal := by
  have H0 := mul_256_val a.limbs b.limbs ha hb
  have hA := val4_lt a.limbs ha
  have hvu : val8 (mul_256 a.limbs b.limbs) < two256 * qVal := by
    rw [H0.2]
    have hAB : val4 a.limbs * val4 b.limbs ≤
        (two64 * two64 * two64 * two64 - 1) * (qVal - 1) :=
      Nat.mul_le_mul (by omega) (by omega)
    simp only [two64, two256, qVal] at hAB ⊢
    omega
  have HR := mont_redc (mul_256 a.limbs b.limbs) H0.1 hvu
  simp only [montgomery_mul]
  set t := red_row3 (red_row2 (red_row1 (red_row0 (mul_256 a.limbs b.limbs)))) with ht
  set r : Limbs4 := ⟨t.t4, t.t5, t.t6, t.t7⟩ with hr
  have hwr : wf4 r := by
    rw [hr]
    exact ⟨HR.1.2.2.2.2.1, HR.1.2.2.2.2.2.1, HR.1.2.2.2.2.2.2.1, HR.1.2.2.2.2.2.2.2⟩
  have hvr : val8 t = two256 * val4 r := by
    rw [hr]
    simp only [val8, val4]
    rw [HR.2.1, HR.2.2.1, HR.2.2.2.1, HR.2.2.2.2.1]
    simp only [two64, two256]
    ring
  have hlt2q : val4 r < 2 * qVal := by
    have hB := HR.2.2.2.2.2.2
    rw [hvr] at hB
    simp only [two256, qVal] at hB ⊢
    omega
  have hcong : two256 * val4 r % qVal = val4 a.limbs * val4 b.limbs % qVal := by
    rw [← hvr, HR.2.2.2.2.2.1, H0.2]
  split_ifs with hc
  · rw [is_canonical_iff r hwr] at hc
    exact ⟨hwr, hc, by rw [Nat.mul_comm]; exact hcong⟩
  · rw [is_canonical_iff r hwr] at hc
    push_neg at hc
    have hge : val4 MODULUS ≤ val4 r := by rw [qVal_eq_val4_MODULUS]; exact hc
    have HS := sub_mod_val_ge r MODULUS hwr wf4_MODULUS hge
    refine ⟨HS.1, ?_, ?_⟩
    · rw [HS.2, qVal_eq_val4_MODULUS]
      omega
    · rw [HS.2, qVal_eq_val4_MODULUS]
      simp only [two256, qVal] at hcong hc hlt2q ⊢
      omega

theorem to_from_canonical_id (x : Limbs4) (hx : wf4 x) (hvx : val4 x < qVal) :
    ScalarField.to_canonical_u64_vec (ScalarField.from_canonical_limbs x) = x := by
  have hone : wf4 ((⟨1, 0, 0, 0⟩ : Limbs4)) := by decide
  have hvone : val4 ((⟨1, 0, 0, 0⟩ : Limbs4)) < qVal := by decide
  have H1 := montgomery_mul_spec ⟨x⟩ ⟨R2⟩ hx wf4_R2 val4_R2_lt
  have H2 := montgomery_mul_spec (montgomery_mul ⟨x⟩ ⟨R2⟩) ⟨⟨1, 0, 0, 0⟩⟩ H1.1 hone hvone
  simp only [ScalarField.to_canonical_u64_vec, ScalarField.from_canonical_limbs]
  refine val4_inj H2.1 hx ?_
  have hone1 : val4 ((⟨1, 0, 0, 0⟩ : Limbs4)) = 1 := by decide
  have hR2v : val4 R2 =
      121192736963923531209031712549416482732469826975348390578079311392820433635 := by
    decide
  have k1 := H2.2.2
  rw [hone1, Nat.mul_one] at k1
  have k2 := H1.2.2
  rw [hR2v] at k2
  have z1 : ((val4 (montgomery_mul (montgomery_mul ⟨x⟩ ⟨R2⟩) ⟨⟨1, 0, 0, 0⟩⟩).limbs *
      two256 : Nat) : ZMod qVal) =
      ((val4 (montgomery_mul ⟨x⟩ ⟨R2⟩).limbs : Nat) : ZMod qVal) :=
    (ZMod.natCast_eq_natCast_iff _ _ _).mpr k1
  have z2 : ((val4 (montgomery_mul ⟨x⟩ ⟨R2⟩).limbs * two256 : Nat) : ZMod qVal) =
      ((val4 x *
        121192736963923531209031712549416482732469826975348390578079311392820433635 :
          Nat) : ZMod qVal) :=
    (ZMod.natCast_eq_natCast_iff _ _ _).mpr k2
  simp only [two256_eq, two64] at z1 z2
  push_cast at z1 z2
  have hW2 : ((115792089237316195423570985008687907853269984665640564039457584007913129639936 :
      ZMod qVal) *
      115792089237316195423570985008687907853269984665640564039457584007913129639936 *
      74997991287418135280157492547976408256645880075506567621282563794579074739) = 1 := by
    decide
  have hR2W2 : ((121192736963923531209031712549416482732469826975348390578079311392820433635 :
      ZMod qVal) *
      74997991287418135280157492547976408256645880075506567621282563794579074739) = 1 := by
    decide
  have zfin : ((val4 (montgomery_mul (montgomery_mul ⟨x⟩ ⟨R2⟩) ⟨⟨1, 0, 0, 0⟩⟩).limbs :
      Nat) : ZMod qVal) = ((val4 x : Nat) : ZMod qVal) := by
    linear_combination
      ((115792089237316195423570985008687907853269984665640564039457584007913129639936 :
          ZMod qVal) *
        74997991287418135280157492547976408256645880075506567621282563794579074739) * z1 +
      (74997991287418135280157492547976408256645880075506567621282563794579074739 :
        ZMod qVal) * z2 -
      ((val4 (montgomery_mul (montgomery_mul ⟨x⟩ ⟨R2⟩) ⟨⟨1, 0, 0, 0⟩⟩).limbs : Nat) :
        ZMod qVal) * hW2 +
      ((val4 x : Nat) : ZMod qVal) * hR2W2
  have hmod := (ZMod.natCast_eq_natCast_iff _ _ _).mp zfin
  have hmod2 : val4 (montgomery_mul (montgomery_mul ⟨x⟩ ⟨R2⟩) ⟨⟨1, 0, 0, 0⟩⟩).limbs % qVal =
      val4 x % qVal := hmod
  rw [Nat.mod_eq_of_lt H2.2.1, Nat.mod_eq_of_lt hvx] at hmod2
  exact hmod2


/-! ### Scalar multiplication: `group.rs` and `msm.rs` -/

/-- `ScalarBits::to_u64_limbs` for `ScalarField` (implemented in the
generator-table module absent from `src/`; the specification fixes it:
"`to_u64_limbs` exits Montgomery form for bit decomposition"). -/
def ScalarField.to_u64_limbs (s : ScalarField) : Limbs4 := s.to_canonical_u64_vec

namespace Affine

/-- Inner 64-bit window of `Group::scalar_mul`: for each of `n` rounds,
conditionally add `temp` to `result` on the low bit, double `temp`, and
shift the bits down. -/
def mul_loop : Nat → Affine → Affine → Nat → Affine × Affine
  | 0, result, temp, _ => (result, temp)
  | n + 1, result, temp, bits =>
    mul_loop n (if bits % 2 = 1 then result.add temp else result) temp.double (bits / 2)

/-- `Group::scalar_mul`: double-and-add over all 256 bits of the canonical
scalar, least-significant limb first. -/
def scalar_mul (p : Affine) (scalar : ScalarField) : Affine :=
  let scalar_limbs := scalar.to_u64_limbs
  let s0 := mul_loop 64 INFINITY p scalar_limbs.l0
  let s1 := mul_loop 64 s0.1 s0.2 scalar_limbs.l1
  let s2 := mul_loop 64 s1.1 s1.2 scalar_limbs.l2
  let s3 := mul_loop 64 s2.1 s2.2 scalar_limbs.l3
  s3.1

/-- Fuel-bounded binary double-and-add, used to state the `n`-th multiple of
a point concretely. -/
def natMulAux : Nat → Affine → Nat → Affine
  | _, _, 0 => INFINITY
  | 0, _, _ + 1 => INFINITY
  | fuel + 1, p, m + 1 =>
    let r := natMulAux fuel p.double ((m + 1) / 2)
    if (m + 1) % 2 = 1 then r.add p else r

/-- The `n`-th multiple of a point by binary double-and-add. -/
def natMul (n : Nat) (p : Affine) : Affine := natMulAux 256 p n

/-- The per-call point table of `double_scalar_mul_basepoint_affine`:
`point_table[0] = INFINITY`, `point_table[1] = p`, and
`point_table[i] = point_table[i-1] + point_table[1]` for `i ≥ 2`. -/
def ptable (p : Affine) : Nat → Affine
  | 0 => INFINITY
  | 1 => p
  | n + 2 => (ptable p (n + 1)).add p

/-- Model of `affine_table()` from the generator-table module absent from
`src/`: the 256 multiples `w·G` addressed by the 8-bit windows of
`double_scalar_mul_basepoint_affine` (the loop supplies the byte-position
scaling through its eight doublings per byte). -/
def affine_table (w : Nat) : Affine := natMul w generator

/-- Model of the fixed-base table of the generator-table module absent from
`src/`, following the specification: "an 8-bit windowed precomputed table of
32 segments of 256 multiples each, keyed by scalar byte position" — segment
`j`, window `w` holds `w·2^(8j)·G`. -/
def gen_table (j w : Nat) : Affine := natMul (w * 256 ^ j) generator

/-- Accumulation of the first `j` byte segments of the fixed-base multiply. -/
def mul_generator_aux (v : Nat) : Nat → Affine
  | 0 => INFINITY
  | j + 1 => (mul_generator_aux v j).add (gen_table j (v / 256 ^ j % 256))

end Affine

/-- Model of `mul_generator_affine` (generator-table module, absent from
`src/`): sum the 32 byte-window table entries of the canonical scalar. -/
def mul_generator_affine (s : ScalarField) : Affine :=
  Affine.mul_generator_aux (val4 s.to_u64_limbs) 32

namespace Affine

/-- Eight consecutive doublings, as run between byte positions of
`double_scalar_mul_basepoint_affine`. -/
def double8 (r : Affine) : Affine :=
  r.double.double.double.double.double.double.double.double

/-- One byte position of the interleaved double-scalar loop: eight doublings,
then the generator-table window, then the point-table window. -/
def dsm_byte (p res : Affine) (aw bw : Nat) : Affine :=
  let r1 := double8 res
  let r2 := if aw ≠ 0 then r1.add (affine_table aw) else r1
  if bw ≠ 0 then r2.add (ptable p bw) else r2

/-- The byte-position loop of `double_scalar_mul_basepoint_affine`. -/
def dsm_loop (p : Affine) (res : Affine) : List (Nat × Nat) → Affine
  | [] => res
  | w :: rest => dsm_loop p (dsm_byte p res w.1 w.2) rest

end Affine

/-- The per-byte window sources of the double-scalar loop: for each limb
(most significant first) and each shift (56 down to 0 in steps of 8), the two
limb values paired with the power `2^shift`. -/
def window_src (a b : Limbs4) : List (Nat × Nat × Nat) :=
  [ (a.l3, b.l3, 72057594037927936), (a.l3, b.l3, 281474976710656),
    (a.l3, b.l3, 1099511627776), (a.l3, b.l3, 4294967296),
    (a.l3, b.l3, 16777216), (a.l3, b.l3, 65536), (a.l3, b.l3, 256), (a.l3, b.l3, 1),
    (a.l2, b.l2, 72057594037927936), (a.l2, b.l2, 281474976710656),
    (a.l2, b.l2, 1099511627776), (a.l2, b.l2, 4294967296),
    (a.l2, b.l2, 16777216), (a.l2, b.l2, 65536), (a.l2, b.l2, 256), (a.l2, b.l2, 1),
    (a.l1, b.l1, 72057594037927936), (a.l1, b.l1, 281474976710656),
    (a.l1, b.l1, 1099511627776), (a.l1, b.l1, 4294967296),
    (a.l1, b.l1, 16777216), (a.l1, b.l1, 65536), (a.l1, b.l1, 256), (a.l1, b.l1, 1),
    (a.l0, b.l0, 72057594037927936), (a.l0, b.l0, 281474976710656),
    (a.l0, b.l0, 1099511627776), (a.l0, b.l0, 4294967296),
    (a.l0, b.l0, 16777216), (a.l0, b.l0, 65536), (a.l0, b.l0, 256), (a.l0, b.l0, 1) ]

/-- The 32 pairs of 8-bit windows of two scalars, most significant limb and
shift first (`limb_idx` descending, `shift` in `56, 48, ..., 0`):
`(limb >> shift) & 0xFF` of each scalar. -/
def byte_windows (a b : Limbs4) : List (Nat × Nat) :=
  (window_src a b).map fun t => (t.1 / t.2.2 % 256, t.2.1 / t.2.2 % 256)

/-- `double_scalar_mul_basepoint_affine` (`msm.rs`): interleaved byte-window
scan of `a` against the generator table and `b` against the point table. -/
def double_scalar_mul_basepoint_affine (a b : ScalarField) (point : Affine) : Affine :=
  Affine.dsm_loop point Affine.INFINITY
    (byte_windows a.to_u64_limbs b.to_u64_limbs)

namespace Affine

theorem wf_generator : generator.wf := by decide

theorem toPoint_inj {p q : Affine} (hp : p.wf) (hq : q.wf) (h : toPoint p = toPoint q) :
    p = q := by
  obtain ⟨hp1, hp2⟩ := hp
  obtain ⟨hq1, hq2⟩ := hq
  cases hpi : p.is_infinity <;> cases hqi : q.is_infinity
  · rw [toPoint_of_fin hpi (hp2 hpi), toPoint_of_fin hqi (hq2 hqi)] at h
    rw [WeierstrassCurve.Affine.Point.some.injEq] at h
    exact Affine.ext h.1 h.2 (by rw [hpi, hqi])
  · rw [toPoint_of_fin hpi (hp2 hpi), toPoint_of_inf hqi] at h
    exact absurd h (WeierstrassCurve.Affine.Point.some_ne_zero _)
  · rw [toPoint_of_inf hpi, toPoint_of_fin hqi (hq2 hqi)] at h
    exact absurd h.symm (WeierstrassCurve.Affine.Point.some_ne_zero _)
  · obtain ⟨hx1, hy1⟩ := hp1 hpi
    obtain ⟨hx2, hy2⟩ := hq1 hqi
    exact Affine.ext (by rw [hx1, hx2]) (by rw [hy1, hy2]) (by rw [hpi, hqi])

theorem mod_split2 (v K : Nat) (hK : 0 < K) : v % (2 * K) = v % 2 + 2 * (v / 2 % K) := by
  have hm : v / 2 % K < K := Nat.mod_lt _ hK
  calc v % (2 * K) = (2 * (v / 2) + v % 2) % (2 * K) := by rw [Nat.div_add_mod]
    _ = ((2 * (v / 2)) % (2 * K) + (v % 2) % (2 * K)) % (2 * K) := by rw [Nat.add_mod]
    _ = (2 * (v / 2 % K) + (v % 2) % (2 * K)) % (2 * K) := by rw [Nat.mul_mod_mul_left]
    _ = (2 * (v / 2 % K) + v % 2) % (2 * K) := by
        rw [Nat.mod_eq_of_lt (show v % 2 < 2 * K by omega)]
    _ = v % 2 + 2 * (v / 2 % K) := by
        rw [Nat.mod_eq_of_lt (by omega)]
        omega

theorem mul_loop_spec : ∀ (n : Nat) (result temp : Affine) (bits : Nat),
    result.wf → temp.wf →
    (mul_loop n result temp bits).1.wf ∧ (mul_loop n result temp bits).2.wf ∧
    toPoint (mul_loop n result temp bits).1 =
      toPoint result + (bits % 2 ^ n) • toPoint temp ∧
    toPoint (mul_loop n result temp bits).2 = 2 ^ n • toPoint temp := by
  intro n
  induction n with
  | zero =>
    intro result temp bits hr ht
    simp only [mul_loop, pow_zero, Nat.mod_one, zero_nsmul, add_zero, one_nsmul]
    exact ⟨hr, ht, by trivial, by trivial⟩
  | succ n ih =>
    intro result temp bits hr ht
    have hres : (if bits % 2 = 1 then result.add temp else result).wf := by
      split_ifs with hb
      · exact (add_correct result temp hr ht).1
      · exact hr
    have H := ih (if bits % 2 = 1 then result.add temp else result) temp.double
      (bits / 2) hres (double_correct temp ht).1
    have hstep : mul_loop (n + 1) result temp bits =
        mul_loop n (if bits % 2 = 1 then result.add temp else result) temp.double
          (bits / 2) := rfl
    rw [hstep]
    refine ⟨H.1, H.2.1, ?_, ?_⟩
    · rw [H.2.2.1, (double_correct temp ht).2]
      have hd : toPoint temp + toPoint temp = (2 : ℕ) • toPoint temp := (two_nsmul _).symm
      rw [hd, ← mul_nsmul]
      have hsplit : bits % 2 ^ (n + 1) = bits % 2 + 2 * (bits / 2 % 2 ^ n) := by
        rw [pow_succ']
        exact mod_split2 bits (2 ^ n) (Nat.pos_pow_of_pos n (by omega))
      rw [hsplit]
      split_ifs with hb
      · rw [(add_correct result temp hr ht).2, hb]
        rw [add_nsmul, one_nsmul]
        abel
      · have hb0 : bits % 2 = 0 := by omega
        rw [hb0, Nat.zero_add]
    · rw [H.2.2.2, (double_correct temp ht).2]
      have hd : toPoint temp + toPoint temp = (2 : ℕ) • toPoint temp := (two_nsmul _).symm
      rw [hd, ← mul_nsmul, ← pow_succ']

theorem natMulAux_spec : ∀ (fuel : Nat) (p : Affine) (n : Nat), n < 2 ^ fuel → p.wf →
    (natMulAux fuel p n).wf ∧ toPoint (natMulAux fuel p n) = n • toPoint p := by
  intro fuel
  induction fuel with
  | zero =>
    intro p n hn hp
    have h0 : n = 0 := by omega
    subst h0
    exact ⟨wf_INFINITY, by rw [toPoint_of_inf rfl, zero_nsmul]⟩
  | succ f ih =>
    intro p n hn hp
    cases n with
    | zero => exact ⟨wf_INFINITY, by rw [toPoint_of_inf rfl, zero_nsmul]⟩
    | succ m =>
      have hlt : (m + 1) / 2 < 2 ^ f := by
        have := Nat.pow_succ 2 f
        omega
      have H := ih p.double ((m + 1) / 2) hlt (double_correct p hp).1
      have hstep : natMulAux (f + 1) p (m + 1) =
          if (m + 1) % 2 = 1 then (natMulAux f p.double ((m + 1) / 2)).add p
          else natMulAux f p.double ((m + 1) / 2) := rfl
      rw [hstep]
      have hd : toPoint p.double = (2 : ℕ) • toPoint p := by
        rw [(double_correct p hp).2, two_nsmul]
      split_ifs with hb
      · refine ⟨(add_correct _ p H.1 hp).1, ?_⟩
        rw [(add_correct _ p H.1 hp).2, H.2, hd, ← mul_nsmul]
        conv_rhs => rw [show m + 1 = 2 * ((m + 1) / 2) + 1 by omega]
        rw [add_nsmul, one_nsmul]
      · refine ⟨H.1, ?_⟩
        rw [H.2, hd, ← mul_nsmul]
        have hm : 2 * ((m + 1) / 2) = m + 1 := by omega
        rw [hm]

theorem natMul_spec (n : Nat) (p : Affine) (hn : n < 2 ^ 256) (hp : p.wf) :
    (natMul n p).wf ∧ toPoint (natMul n p) = n • toPoint p :=
  natMulAux_spec 256 p n hn hp

end Affine

/-- Canonical limbs of a well-formed scalar: bounded limbs and value below `q`. -/
theorem to_u64_limbs_wf (s : ScalarField) (hs : wf4 s.limbs) :
    wf4 s.to_u64_limbs ∧ val4 s.to_u64_limbs < qVal := by
  have H := montgomery_mul_spec s ⟨⟨1, 0, 0, 0⟩⟩ hs (by decide) (by decide)
  exact ⟨H.1, H.2.1⟩

namespace Affine

theorem scalar_mul_spec (p : Affine) (s : ScalarField) (hp : p.wf) (hs : wf4 s.limbs) :
    (scalar_mul p s).wf ∧
    toPoint (scalar_mul p s) = val4 s.to_u64_limbs • toPoint p := by
  obtain ⟨hl0, hl1, hl2, hl3⟩ := (to_u64_limbs_wf s hs).1
  have H0 := mul_loop_spec 64 INFINITY p s.to_u64_limbs.l0 wf_INFINITY hp
  have H1 := mul_loop_spec 64 (mul_loop 64 INFINITY p s.to_u64_limbs.l0).1
    (mul_loop 64 INFINITY p s.to_u64_limbs.l0).2 s.to_u64_limbs.l1 H0.1 H0.2.1
  have H2 := mul_loop_spec 64 _ _ s.to_u64_limbs.l2 H1.1 H1.2.1
  have H3 := mul_loop_spec 64 _ _ s.to_u64_limbs.l3 H2.1 H2.2.1
  have hsm : scalar_mul p s =
      (mul_loop 64 (mul_loop 64 (mul_loop 64 (mul_loop 64 INFINITY p
        s.to_u64_limbs.l0).1 (mul_loop 64 INFINITY p s.to_u64_limbs.l0).2
          s.to_u64_limbs.l1).1 (mul_loop 64 (mul_loop 64 INFINITY p
            s.to_u64_limbs.l0).1 (mul_loop 64 INFINITY p s.to_u64_limbs.l0).2
              s.to_u64_limbs.l1).2 s.to_u64_limbs.l2).1
        (mul_loop 64 (mul_loop 64 (mul_loop 64 INFINITY p s.to_u64_limbs.l0).1
          (mul_loop 64 INFINITY p s.to_u64_limbs.l0).2 s.to_u64_limbs.l1).1
            (mul_loop 64 (mul_loop 64 INFINITY p s.to_u64_limbs.l0).1
              (mul_loop 64 INFINITY p s.to_u64_limbs.l0).2 s.to_u64_limbs.l1).2
                s.to_u64_limbs.l2).2 s.to_u64_limbs.l3).1 := rfl
  rw [hsm]
  refine ⟨H3.1, ?_⟩
  simp only [two64] at hl0 hl1 hl2 hl3
  rw [H3.2.2.1, H2.2.2.1, H1.2.2.1, H0.2.2.1, H2.2.2.2, H1.2.2.2, H0.2.2.2,
    toPoint_of_inf rfl]
  rw [Nat.mod_eq_of_lt (show s.to_u64_limbs.l0 < 2 ^ 64 by omega),
    Nat.mod_eq_of_lt (show s.to_u64_limbs.l1 < 2 ^ 64 by omega),
    Nat.mod_eq_of_lt (show s.to_u64_limbs.l2 < 2 ^ 64 by omega),
    Nat.mod_eq_of_lt (show s.to_u64_limbs.l3 < 2 ^ 64 by omega)]
  rw [zero_add, ← mul_nsmul, ← mul_nsmul, ← mul_nsmul, ← mul_nsmul, ← mul_nsmul,
    ← mul_nsmul]
  rw [← add_nsmul, ← add_nsmul, ← add_nsmul]
  congr 1
  rw [val4]
  simp only [two64]
  ring

theorem ptable_spec (p : Affine) (hp : p.wf) :
    ∀ n, (ptable p n).wf ∧ toPoint (ptable p n) = n • toPoint p := by
  intro n
  induction n with
  | zero => exact ⟨wf_INFINITY, by rw [toPoint_of_inf rfl, zero_nsmul]⟩
  | succ m ihm =>
    cases m with
    | zero => exact ⟨hp, by rw [one_nsmul]; rfl⟩
    | succ k =>
      refine ⟨(add_correct _ p ihm.1 hp).1, ?_⟩
      show toPoint ((ptable p (k + 1)).add p) = _
      rw [(add_correct _ p ihm.1 hp).2, ihm.2, ← succ_nsmul]

theorem gen_table_spec (j w : Nat) (hj : j < 32) (hw : w < 256) :
    (gen_table j w).wf ∧ toPoint (gen_table j w) = (w * 256 ^ j) • toPoint generator := by
  have hb : w * 256 ^ j < 2 ^ 256 := by
    have h1 : w * 256 ^ j ≤ 255 * 256 ^ 31 :=
      Nat.mul_le_mul (by omega) (Nat.pow_le_pow_right (by omega) (by omega))
    have h2 : 255 * 256 ^ 31 < 2 ^ 256 := by norm_num
    omega
  exact natMul_spec _ generator hb wf_generator

theorem affine_table_spec (w : Nat) (hw : w < 256) :
    (affine_table w).wf ∧ toPoint (affine_table w) = w • toPoint generator := by
  have hb : w < 2 ^ 256 := by
    have h2 : 256 ≤ 2 ^ 256 := by norm_num
    omega
  exact natMul_spec w generator hb wf_generator

theorem mod_split256 (v K : Nat) (hK : 0 < K) :
    v % (K * 256) = v % K + K * (v / K % 256) := by
  have hm : v / K % 256 ≤ 255 := by omega
  have hmul := Nat.mul_le_mul_left K hm
  have hvk : v % K < K := Nat.mod_lt _ hK
  have hsplit : K * 256 = K * 255 + K := by ring
  calc v % (K * 256) = (K * (v / K) + v % K) % (K * 256) := by rw [Nat.div_add_mod]
    _ = ((K * (v / K)) % (K * 256) + (v % K) % (K * 256)) % (K * 256) := by
        rw [Nat.add_mod]
    _ = (K * (v / K % 256) + (v % K) % (K * 256)) % (K * 256) := by
        rw [Nat.mul_mod_mul_left]
    _ = (K * (v / K % 256) + v % K) % (K * 256) := by
        rw [Nat.mod_eq_of_lt (show v % K < K * 256 by omega)]
    _ = v % K + K * (v / K % 256) := by
        rw [Nat.mod_eq_of_lt (by omega)]
        omega

theorem mul_generator_aux_spec (v : Nat) :
    ∀ j, j ≤ 32 → (mul_generator_aux v j).wf ∧
      toPoint (mul_generator_aux v j) = (v % 256 ^ j) • toPoint generator := by
  intro j
  induction j with
  | zero =>
    intro _
    exact ⟨wf_INFINITY, by rw [toPoint_of_inf rfl, pow_zero, Nat.mod_one, zero_nsmul]⟩
  | succ j ih =>
    intro hj
    have IH := ih (by omega)
    have HG := gen_table_spec j (v / 256 ^ j % 256) (by omega) (Nat.mod_lt _ (by omega))
    have hstep : mul_generator_aux v (j + 1) =
        (mul_generator_aux v j).add (gen_table j (v / 256 ^ j % 256)) := rfl
    rw [hstep]
    refine ⟨(add_correct _ _ IH.1 HG.1).1, ?_⟩
    rw [(add_correct _ _ IH.1 HG.1).2, IH.2, HG.2, ← add_nsmul]
    congr 1
    rw [pow_succ, mod_split256 v (256 ^ j) (Nat.pos_pow_of_pos j (by omega))]
    ring

end Affine

theorem mul_generator_spec (s : ScalarField) (hs : wf4 s.limbs) :
    (mul_generator_affine s).wf ∧
    toPoint (mul_generator_affine s) = val4 s.to_u64_limbs • toPoint Affine.generator := by
  have H := Affine.mul_generator_aux_spec (val4 s.to_u64_limbs) 32 (by omega)
  have hv : val4 s.to_u64_limbs < 256 ^ 32 := by
    have h1 := val4_lt s.to_u64_limbs (to_u64_limbs_wf s hs).1
    have h2 : two64 * two64 * two64 * two64 = 256 ^ 32 := by decide
    omega
  refine ⟨H.1, ?_⟩
  rw [show mul_generator_affine s = Affine.mul_generator_aux (val4 s.to_u64_limbs) 32
      from rfl, H.2, Nat.mod_eq_of_lt hv]

namespace Affine

theorem double8_spec (r : Affine) (hr : r.wf) :
    (double8 r).wf ∧ toPoint (double8 r) = (256 : ℕ) • toPoint r := by
  have e1 := double_correct r hr
  have e2 := double_correct _ e1.1
  have e3 := double_correct _ e2.1
  have e4 := double_correct _ e3.1
  have e5 := double_correct _ e4.1
  have e6 := double_correct _ e5.1
  have e7 := double_correct _ e6.1
  have e8 := double_correct _ e7.1
  refine ⟨e8.1, ?_⟩
  have f1 : toPoint r.double = (2 : ℕ) • toPoint r := by
    rw [e1.2, two_nsmul]
  have f2 : toPoint r.double.double = (4 : ℕ) • toPoint r := by
    rw [e2.2, f1, ← two_nsmul, ← mul_nsmul]
  have f3 : toPoint r.double.double.double = (8 : ℕ) • toPoint r := by
    rw [e3.2, f2, ← two_nsmul, ← mul_nsmul]
  have f4 : toPoint r.double.double.double.double = (16 : ℕ) • toPoint r := by
    rw [e4.2, f3, ← two_nsmul, ← mul_nsmul]
  have f5 : toPoint r.double.double.double.double.double = (32 : ℕ) • toPoint r := by
    rw [e5.2, f4, ← two_nsmul, ← mul_nsmul]
  have f6 : toPoint r.double.double.double.double.double.double =
      (64 : ℕ) • toPoint r := by
    rw [e6.2, f5, ← two_nsmul, ← mul_nsmul]
  have f7 : toPoint r.double.double.double.double.double.double.double =
      (128 : ℕ) • toPoint r := by
    rw [e7.2, f6, ← two_nsmul, ← mul_nsmul]
  show toPoint r.double.double.double.double.double.double.double.double = _
  rw [e8.2, f7, ← two_nsmul, ← mul_nsmul]

theorem dsm_byte_spec (p res : Affine) (aw bw : Nat) (hp : p.wf) (hres : res.wf)
    (haw : aw < 256) (hbw : bw < 256) :
    (dsm_byte p res aw bw).wf ∧
    toPoint (dsm_byte p res aw bw) =
      (256 : ℕ) • toPoint res + aw • toPoint generator + bw • toPoint p := by
  have H8 := double8_spec res hres
  have hr2 : (if aw ≠ 0 then (double8 res).add (affine_table aw) else double8 res).wf ∧
      toPoint (if aw ≠ 0 then (double8 res).add (affine_table aw) else double8 res) =
        (256 : ℕ) • toPoint res + aw • toPoint generator := by
    split_ifs with ha
    · have HT := affine_table_spec aw haw
      refine ⟨(add_correct _ _ H8.1 HT.1).1, ?_⟩
      rw [(add_correct _ _ H8.1 HT.1).2, H8.2, HT.2]
    · have ha0 : aw = 0 := by omega
      subst ha0
      rw [zero_nsmul, add_zero]
      exact H8
  have hstep : dsm_byte p res aw bw =
      if bw ≠ 0 then
        (if aw ≠ 0 then (double8 res).add (affine_table aw) else double8 res).add
          (ptable p bw)
      else (if aw ≠ 0 then (double8 res).add (affine_table aw) else double8 res) := rfl
  rw [hstep]
  by_cases hb : bw ≠ 0
  · rw [if_pos hb]
    have HP := ptable_spec p hp bw
    refine ⟨(add_correct _ _ hr2.1 HP.1).1, ?_⟩
    rw [(add_correct _ _ hr2.1 HP.1).2, hr2.2, HP.2]
  · rw [if_neg hb]
    have hb0 : bw = 0 := by omega
    subst hb0
    rw [zero_nsmul, add_zero]
    exact hr2

theorem dsm_loop_spec (p : Affine) (hp : p.wf) :
    ∀ (ws : List (Nat × Nat)) (res : Affine) (A B : Nat), res.wf →
    (∀ w ∈ ws, w.1 < 256 ∧ w.2 < 256) →
    toPoint res = A • toPoint generator + B • toPoint p →
    (dsm_loop p res ws).wf ∧
    toPoint (dsm_loop p res ws) =
      (ws.foldl (fun acc w => 256 * acc + w.1) A) • toPoint generator +
      (ws.foldl (fun acc w => 256 * acc + w.2) B) • toPoint p := by
  intro ws
  induction ws with
  | nil =>
    intro res A B hres _ hval
    exact ⟨hres, by simpa using hval⟩
  | cons w rest ih =>
    intro res A B hres hbnd hval
    have hw := hbnd w (List.mem_cons_self w rest)
    have HB := dsm_byte_spec p res w.1 w.2 hp hres hw.1 hw.2
    have hnext : toPoint (dsm_byte p res w.1 w.2) =
        (256 * A + w.1) • toPoint generator + (256 * B + w.2) • toPoint p := by
      rw [HB.2, hval, nsmul_add, ← mul_nsmul, ← mul_nsmul]
      rw [Nat.mul_comm A 256, Nat.mul_comm B 256, add_nsmul, add_nsmul]
      abel
    have H := ih (dsm_byte p res w.1 w.2) (256 * A + w.1) (256 * B + w.2) HB.1
      (fun x hx => hbnd x (List.mem_cons_of_mem w hx)) hnext
    exact H

end Affine

theorem byte_chain (acc x : Nat) (hx : x < 18446744073709551616) :
    256 * (256 * (256 * (256 * (256 * (256 * (256 * (256 * acc +
      x / 72057594037927936 % 256) + x / 281474976710656 % 256) +
        x / 1099511627776 % 256) + x / 4294967296 % 256) + x / 16777216 % 256) +
          x / 65536 % 256) + x / 256 % 256) + x % 256 =
      18446744073709551616 * acc + x := by
  omega

theorem dsm_spec (a b : ScalarField) (point : Affine) (ha : wf4 a.limbs)
    (hb : wf4 b.limbs) (hpt : point.wf) :
    (double_scalar_mul_basepoint_affine a b point).wf ∧
    toPoint (double_scalar_mul_basepoint_affine a b point) =
      val4 a.to_u64_limbs • toPoint Affine.generator +
        val4 b.to_u64_limbs • toPoint point := by
  have hwa := (to_u64_limbs_wf a ha).1
  have hwb := (to_u64_limbs_wf b hb).1
  rw [show double_scalar_mul_basepoint_affine a b point =
    Affine.dsm_loop point Affine.INFINITY
      (byte_windows a.to_u64_limbs b.to_u64_limbs) from rfl]
  generalize hA : a.to_u64_limbs = A at hwa ⊢
  generalize hB : b.to_u64_limbs = B at hwb ⊢
  obtain ⟨ha0, ha1, ha2, ha3⟩ := hwa
  obtain ⟨hb0, hb1, hb2, hb3⟩ := hwb
  have hfold1 : (byte_windows A B).foldl
      (fun acc w => 256 * acc + w.1) 0 = val4 A := by
    rw [byte_windows, List.foldl_map]
    simp only [window_src, List.foldl, val4, Nat.div_one]
    simp only [two64] at ha0 ha1 ha2 ha3 ⊢
    rw [byte_chain 0 A.l3 ha3, byte_chain _ A.l2 ha2, byte_chain _ A.l1 ha1,
      byte_chain _ A.l0 ha0]
    omega
  have hfold2 : (byte_windows A B).foldl
      (fun acc w => 256 * acc + w.2) 0 = val4 B := by
    rw [byte_windows, List.foldl_map]
    simp only [window_src, List.foldl, val4, Nat.div_one]
    simp only [two64] at hb0 hb1 hb2 hb3 ⊢
    rw [byte_chain 0 B.l3 hb3, byte_chain _ B.l2 hb2, byte_chain _ B.l1 hb1,
      byte_chain _ B.l0 hb0]
    omega
  have hbnd : ∀ w ∈ byte_windows A B, w.1 < 256 ∧ w.2 < 256 := by
    intro w hw
    rw [byte_windows] at hw
    obtain ⟨t, _, rfl⟩ := List.mem_map.mp hw
    exact ⟨Nat.mod_lt _ (by omega), Nat.mod_lt _ (by omega)⟩
  have H := Affine.dsm_loop_spec point hpt
    (byte_windows A B) Affine.INFINITY 0 0 wf_INFINITY
    hbnd (by rw [toPoint_of_inf rfl, zero_nsmul, zero_nsmul, add_zero])
  refine ⟨H.1, ?_⟩
  rw [H.2, hfold1, hfold2]

/-! ### Claim theorems -/

/-- C9: for every 4-limb little-endian value `x` with `x < q` (canonical),
converting into Montgomery form and back is the identity:
`ScalarField::from_canonical_limbs(x).to_canonical_u64_vec() = x`. -/
theorem from_canonical_roundtrip (x : Limbs4) (hx : wf4 x) (hvx : val4 x < qVal) :
    ScalarField.to_canonical_u64_vec (ScalarField.from_canonical_limbs x) = x :=
  to_from_canonical_id x hx hvx

theorem from_canonical_roundtrip_witness :
    wf4 (⟨5, 0, 0, 0⟩ : Limbs4) ∧ val4 (⟨5, 0, 0, 0⟩ : Limbs4) < qVal ∧
      ScalarField.to_canonical_u64_vec (ScalarField.from_canonical_limbs ⟨5, 0, 0, 0⟩) =
        (⟨5, 0, 0, 0⟩ : Limbs4) :=
  ⟨by decide, by decide, from_canonical_roundtrip ⟨5, 0, 0, 0⟩ (by decide) (by decide)⟩

/-- C6: for all scalars `a`, `b` in the scalar field and every point `P` of the
curve group (the point at infinity included),
`double_scalar_mul_basepoint_affine a b P` equals `a*G + b*P`, where `G` is the
fixed generator and scalar multiplication is the double-and-add reference
`Group::scalar_mul`. -/
theorem double_scalar_mul_basepoint_eval (a b : ScalarField) (P : Affine)
    (ha : wf4 a.limbs) (hb : wf4 b.limbs) (hP : P.wf) :
    double_scalar_mul_basepoint_affine a b P =
      (Affine.scalar_mul Affine.generator a).add (Affine.scalar_mul P b) := by
  have HD := dsm_spec a b P ha hb hP
  have HG := Affine.scalar_mul_spec Affine.generator a Affine.wf_generator ha
  have HP := Affine.scalar_mul_spec P b hP hb
  have HS := add_correct _ _ HG.1 HP.1
  refine Affine.toPoint_inj HD.1 HS.1 ?_
  rw [HD.2, HS.2, HG.2, HP.2]

theorem double_scalar_mul_basepoint_eval_witness :
    wf4 (ScalarField.ZERO).limbs ∧ Affine.INFINITY.wf ∧
      double_scalar_mul_basepoint_affine ScalarField.ZERO ScalarField.ZERO
          Affine.INFINITY =
        (Affine.scalar_mul Affine.generator ScalarField.ZERO).add
          (Affine.scalar_mul Affine.INFINITY ScalarField.ZERO) :=
  ⟨by decide, by decide,
    double_scalar_mul_basepoint_eval ScalarField.ZERO ScalarField.ZERO
      Affine.INFINITY (by decide) (by decide) (by decide)⟩

/-- C10: the field divisions inside `Affine::double` and `Affine::add` never
see a zero divisor: `double` returns `INFINITY` before forming the tangent
slope whenever `y = 0`, and on the tangent path the divisor `2y` is nonzero;
`add` reaches the chord slope only on the branch where the x-coordinates
differ (the equal-`x` cases having already returned the doubling or
`INFINITY`), and there the divisor `x₂ − x₁` is nonzero. -/
theorem slope_divisor_nonzero (p q : Affine) :
    (p.is_infinity = false → BaseField.isZero p.y = true →
      p.double = Affine.INFINITY) ∧
    (BaseField.isZero p.y = false → p.y + p.y ≠ 0) ∧
    (p.is_infinity = false → q.is_infinity = false → p.x = q.x →
      p.add q = p.double ∨ p.add q = Affine.INFINITY) ∧
    (p.x ≠ q.x → q.x - p.x ≠ 0) := by
  refine ⟨?_, ?_, ?_, ?_⟩
  · intro hinf hy
    rw [BaseField.isZero] at hy
    exact double_y_zero hinf (of_decide_eq_true hy)
  · intro hy hsum
    have hyne : p.y ≠ 0 := by
      rw [BaseField.isZero] at hy
      exact of_decide_eq_false hy
    have h2 : (2 : BaseField) * p.y = 0 := by
      rw [two_mul]
      exact hsum
    rcases mul_eq_zero.mp h2 with h | h
    · exact two_ne_zero_bf h
    · exact hyne h
  · intro hpinf hqinf hx
    rw [Affine.add, if_neg (not_inf_true_of_false hpinf),
      if_neg (not_inf_true_of_false hqinf), if_pos hx]
    by_cases hy : p.y = q.y
    · rw [if_pos hy]
      exact Or.inl rfl
    · rw [if_neg hy]
      exact Or.inr rfl
  · intro hx
    exact sub_ne_zero.mpr (Ne.symm hx)

theorem slope_divisor_nonzero_witness :
    BaseField.isZero Affine.generator.y = false ∧
      Affine.generator.y + Affine.generator.y ≠ 0 :=
  ⟨by decide,
    (slope_divisor_nonzero Affine.generator Affine.generator).2.1 (by decide)⟩
